import Mathlib

/-!
Verification of the family-tree repository's search, linkage and admin modules.

Text is modelled as a list of characters (one JS UTF-16 code unit per character:
every character appearing in the repository's data and dictionaries lies in the
Basic Multilingual Plane, where JS code units and Unicode code points coincide).
Fractional scores are modelled as exact rationals.

Sources embedded here:
  - js/cognitive-search.js   (class CognitiveSearch)
  - js/admin-panel.js        (class AdminPanel, data mutations only)
  - the unnamed FamilyTreeGL file (generateMarriageId, computeGeneration)
-/

namespace FamilyTree

/- Scores are exact rationals; the Batteries rational arithmetic is sealed
behind an irreducibility attribute, which is lifted here so that concrete
score computations can be settled by the kernel. -/
attribute [local semireducible] Rat.add Rat.sub Rat.mul Rat.inv Rat.ofScientific

/-- Strings as character lists. -/
abbrev Str := List Char

/-- The character class matched by the JS regular expression shorthand for
whitespace (space, tab, line feed, vertical tab, form feed, carriage return,
NBSP and the Unicode space separators). -/
def jsWs (c : Char) : Bool :=
  c.val = 9 || c.val = 10 || c.val = 11 || c.val = 12 || c.val = 13 || c.val = 32 ||
  c.val = 0xa0 || c.val = 0x1680 || (0x2000 ≤ c.val && c.val ≤ 0x200a) ||
  c.val = 0x2028 || c.val = 0x2029 || c.val = 0x202f || c.val = 0x205f ||
  c.val = 0x3000 || c.val = 0xfeff

/-- JS toLowerCase restricted to the scripts in play: ASCII letters are lowered,
Arabic (and every other character used by the repository) is left unchanged. -/
def jsToLowerChar (c : Char) : Char :=
  if 'A' ≤ c ∧ c ≤ 'Z' then Char.ofNat (c.toNat + 32) else c

/-- Lowercasing a string, marker for the JS toLowerCase() calls. -/
def jsToLower (t : Str) : Str := t.map jsToLowerChar

/-- First replace in normalizeText: hamza-bearing or madda alef forms to bare alef. -/
def normAlefChar (c : Char) : Char :=
  if c = 'أ' ∨ c = 'إ' ∨ c = 'آ' then 'ا' else c

/-- Second replace in normalizeText: alef maksura folded onto yaa. -/
def normYaaChar (c : Char) : Char :=
  if c = 'ى' ∨ c = 'ي' then 'ي' else c

/-- Third replace in normalizeText: taa marbouta folded onto haa. -/
def normTaaChar (c : Char) : Char :=
  if c = 'ة' ∨ c = 'ه' then 'ه' else c

/-- Fourth replace in normalizeText: hamza-bearing waw and yaa folded onto waw. -/
def normWawChar (c : Char) : Char :=
  if c = 'ؤ' ∨ c = 'ئ' then 'و' else c

/-- State-passing run-collapser for the whitespace replace: a run of whitespace
becomes one space; the Boolean records whether the previous character was
whitespace (still inside a run). -/
def collapseWsAux : Bool → Str → Str
  | _, [] => []
  | prevWs, c :: cs =>
    if jsWs c then
      if prevWs then collapseWsAux true cs else ' ' :: collapseWsAux true cs
    else c :: collapseWsAux false cs

/-- The whitespace-run replace from normalizeText. -/
def collapseWs (l : Str) : Str := collapseWsAux false l

/-- JS String.trim(): whitespace stripped from both ends. -/
def jsTrim (l : Str) : Str :=
  ((l.dropWhile jsWs).reverse.dropWhile jsWs).reverse

/-- CognitiveSearch.normalizeText: the four letter folds in source order,
hamza removal, whitespace collapse, trim. -/
def normalizeText (t : Str) : Str :=
  jsTrim (collapseWs
    (((((t.map normAlefChar).map normYaaChar).map normTaaChar).map normWawChar).filter
      (fun c => c ≠ 'ء')))

/-- The four letter folds of normalizeText composed in source order. -/
def foldChar (c : Char) : Char :=
  normWawChar (normTaaChar (normYaaChar (normAlefChar c)))

/-- Separation invariant after the whitespace collapse: no whitespace
character is immediately followed by another. -/
def wsep (a b : Char) : Prop := jsWs a = true → jsWs b = false

/-- Membership in the Arabic Unicode ranges tested by CognitiveSearch.isArabic. -/
def isArabicChar (c : Char) : Bool :=
  (0x600 ≤ c.val && c.val ≤ 0x6FF) || (0x750 ≤ c.val && c.val ≤ 0x77F) ||
  (0x8A0 ≤ c.val && c.val ≤ 0x8FF) || (0xFB50 ≤ c.val && c.val ≤ 0xFDFF) ||
  (0xFE70 ≤ c.val && c.val ≤ 0xFEFF)

/-- CognitiveSearch.isArabic: the regex test succeeds iff some character lies in
one of the Arabic ranges. -/
def isArabic (t : Str) : Bool := t.any isArabicChar

/-
CognitiveSearch.levenshteinDistance builds the full dynamic-programming matrix
row by row: row 0 is 0..len(str1) and each later row i starts with i and is
filled left to right from the previous row.  The embedding below mirrors that
row computation.
-/

/-- One row of the Levenshtein matrix past column 0: walks the characters of
str1 together with the previous row; pDiag is the entry up-left, the head of
pRest the entry straight up, and left the entry just written on this row. -/
def levRowRest (c2 : Char) : Str → List Nat → Nat → List Nat
  | [], _, _ => []
  | _ :: _, [], _ => []
  | c1 :: cs, pDiag :: pRest, left =>
    let entry :=
      if c2 = c1 then pDiag
      else min (pDiag + 1) (min (left + 1) ((pRest.headD 0) + 1))
    entry :: levRowRest c2 cs pRest entry

/-- Row i of the matrix: the leading i from the initialisation loop, then the
filled entries. -/
def levRow (s1 : Str) (c2 : Char) (prev : List Nat) (i : Nat) : List Nat :=
  i :: levRowRest c2 s1 prev i

/-- The outer loop over the characters of str2, threading the current row. -/
def levLoop (s1 : Str) : List Nat → Nat → Str → List Nat
  | prev, _, [] => prev
  | prev, i, c2 :: rest => levLoop s1 (levRow s1 c2 prev (i + 1)) (i + 1) rest

/-- CognitiveSearch.levenshteinDistance: the bottom-right entry of the matrix. -/
def levenshteinDistance (s1 s2 : Str) : Nat :=
  (levLoop s1 (List.range (s1.length + 1)) 0 s2).getLastD 0

/-- The textbook unit-cost edit distance (insert, delete, substitute), written
from the specification's words, to be compared with the source's matrix. -/
def levSpec : Str → Str → Nat
  | [], ys => ys.length
  | xs, [] => xs.length
  | x :: xs, y :: ys =>
    if x = y then levSpec xs ys
    else 1 + min (levSpec xs ys) (min (levSpec (x :: xs) ys) (levSpec xs (y :: ys)))
  termination_by xs ys => xs.length + ys.length
  decreasing_by all_goals simp_arith

/-- CognitiveSearch.getTextSimilarity: equal strings short-circuit to 1, an
empty side scores 0, otherwise one minus the normalized matrix distance. -/
def getTextSimilarity (s1 s2 : Str) : ℚ :=
  if s1 = s2 then 1
  else if s1.length = 0 then 0
  else if s2.length = 0 then 0
  else 1 - (levenshteinDistance s1 s2 : ℚ) / ((max s1.length s2.length : ℕ) : ℚ)

/-
Correspondence between the row-by-row matrix of levenshteinDistance and
levSpec.  With rd the reverse of the consumed prefix of str1 and rp the reverse
of the consumed prefix of str2, the matrix entries on a row are the values
levSpec rp (c :: rd) as the remaining characters c of str1 are consumed.
-/

/-- Specification of the part of a matrix row strictly after some column:
one entry per remaining character of str1. -/
def rowTail (rp rd : Str) : Str → List Nat
  | [] => []
  | c :: cs => levSpec rp (c :: rd) :: rowTail rp (c :: rd) cs

/-- A full matrix row for the consumed str2 prefix rp. -/
def rowFull (s1 rp : Str) : List Nat :=
  levSpec rp [] :: rowTail rp [] s1

/-- Whether the second list is an initial run of the first. -/
def leadMatch : Str → Str → Bool
  | _, [] => true
  | [], _ :: _ => false
  | a :: as, b :: bs => a == b && leadMatch as bs

/-- JS a.includes(b): b occurs contiguously inside a. -/
def jsIncludes : Str → Str → Bool
  | [], needle => needle.isEmpty
  | hay@(_ :: rest), needle => leadMatch hay needle || jsIncludes rest needle

/-- The curated Arabic-name dictionary of the CognitiveSearch constructor, in
source (insertion) order. -/
def arabicToEnglish : List (Str × List Str) := [
  ("أحمد".data, ["ahmed".data, "ahmad".data, "ahmet".data]),
  ("محمد".data, ["mohammed".data, "muhammad".data, "mohamed".data, "mohammad".data]),
  ("علي".data, ["ali".data, "aly".data]),
  ("حسن".data, ["hassan".data, "hasan".data]),
  ("حسين".data, ["hussein".data, "husain".data, "husayn".data]),
  ("عبدالله".data, ["abdullah".data, "abdallah".data, "abd allah".data]),
  ("عبدالرحمن".data, ["abdulrahman".data, "abdurrahman".data, "abd al rahman".data]),
  ("عبدالعزيز".data, ["abdulaziz".data, "abdul aziz".data, "abd al aziz".data]),
  ("فاطمة".data, ["fatima".data, "fatimah".data, "fatma".data]),
  ("عائشة".data, ["aisha".data, "aishah".data, "ayesha".data]),
  ("خديجة".data, ["khadija".data, "khadijah".data, "khadiga".data]),
  ("مريم".data, ["maryam".data, "mary".data, "mariam".data]),
  ("زينب".data, ["zainab".data, "zaynab".data, "zeinab".data]),
  ("سارة".data, ["sara".data, "sarah".data]),
  ("نور".data, ["noor".data, "nur".data, "nour".data]),
  ("سليمان".data, ["soliman".data, "sulaiman".data, "suleiman".data]),
  ("داود".data, ["dawood".data, "dawud".data, "david".data]),
  ("إبراهيم".data, ["ibrahim".data, "ibraheem".data, "abraham".data]),
  ("إسماعيل".data, ["ismail".data, "ismael".data]),
  ("يوسف".data, ["yusuf".data, "yousef".data, "joseph".data]),
  ("عمر".data, ["omar".data, "umar".data, "omer".data]),
  ("عثمان".data, ["othman".data, "uthman".data, "osman".data]),
  ("أشرف".data, ["ashraf".data, "ashraaf".data, "ashraff".data]),
  ("عبداللطيف".data, ["abdullatif".data, "abdul latif".data]),
  ("عبدالسلام".data, ["abdulsalam".data, "abdul salam".data]),
  ("عبدالغني".data, ["abdulghani".data, "abdul ghani".data]),
  ("عبدالوهاب".data, ["abdulwahab".data, "abdul wahab".data]),
  ("عبدالمنعم".data, ["abdulmunim".data, "abdul munim".data]),
  ("عبدالمجيد".data, ["abdulmajid".data, "abdul majid".data]),
  ("عبدالفتاح".data, ["abdulfattah".data, "abdul fattah".data]),
  ("عبدالرزاق".data, ["abdulrazzaq".data, "abdul razzaq".data]),
  ("عبدالستار".data, ["abdulsattar".data, "abdul sattar".data]),
  ("عبدالغفار".data, ["abdulghaffar".data, "abdul ghaffar".data]),
  ("عبدالرحيم".data, ["abdulrahim".data, "abdul rahim".data]),
  ("عبدالخالق".data, ["abdulkhaliq".data, "abdul khaliq".data]),
  ("عبدالواحد".data, ["abdulwahid".data, "abdul wahid".data]),
  ("عبدالرؤوف".data, ["abdulrauf".data, "abdul rauf".data])]

/-- JS object property access on arabicToEnglish (keys are distinct, so the
first match is the entry). -/
def lookupArabic (name : Str) : Option (List Str) :=
  (arabicToEnglish.find? (fun e => e.1 == name)).map (fun e => e.2)

/-- The reverse mapping built in the constructor: for a given Latin key, the
Arabic names listing it as a variant, in dictionary order (exactly the list the
JS loop pushes).  The JS truthiness test on the entry is emptiness here. -/
def englishToArabic (q : Str) : List Str :=
  (arabicToEnglish.filter (fun e => e.2.contains q)).map (fun e => e.1)

/-- The Arabizi numeral map of buildArabicCandidatesFromEnglish. -/
def digitMap (c : Char) : Option (List Str) :=
  if c = '2' then some ["ء".data, "ا".data]
  else if c = '3' then some ["ع".data]
  else if c = '5' then some ["خ".data]
  else if c = '6' then some ["ط".data]
  else if c = '7' then some ["ح".data]
  else if c = '8' then some ["غ".data, "ج".data]
  else if c = '9' then some ["ص".data, "ض".data]
  else none

/-- The two-character digraph map of buildArabicCandidatesFromEnglish. -/
def digraphMap (c1 c2 : Char) : Option (List Str) :=
  if c1 = 's' ∧ c2 = 'h' then some ["ش".data]
  else if c1 = 'c' ∧ c2 = 'h' then some ["تش".data, "ش".data]
  else if c1 = 'k' ∧ c2 = 'h' then some ["خ".data]
  else if c1 = 't' ∧ c2 = 'h' then some ["ث".data, "ذ".data]
  else if c1 = 'd' ∧ c2 = 'h' then some ["ذ".data]
  else if c1 = 'g' ∧ c2 = 'h' then some ["غ".data]
  else if c1 = 'p' ∧ c2 = 'h' then some ["ف".data]
  else if c1 = 'a' ∧ c2 = 'a' then some ["ا".data, "".data]
  else if c1 = 'e' ∧ c2 = 'e' then some ["ي".data]
  else if c1 = 'o' ∧ c2 = 'o' then some ["و".data]
  else if c1 = 'o' ∧ c2 = 'u' then some ["و".data]
  else if c1 = 'o' ∧ c2 = 'w' then some ["و".data]
  else if c1 = 'a' ∧ c2 = 'i' then some ["ي".data, "ا".data]
  else if c1 = 'a' ∧ c2 = 'y' then some ["ي".data]
  else if c1 = 'e' ∧ c2 = 'a' then some ["ي".data, "ا".data]
  else if c1 = 'i' ∧ c2 = 'e' then some ["ي".data]
  else none

/-- The single-letter map of buildArabicCandidatesFromEnglish. -/
def singleMap (c : Char) : Option (List Str) :=
  if c = 'a' then some ["ا".data, "".data]
  else if c = 'b' then some ["ب".data]
  else if c = 'c' then some ["ك".data, "س".data]
  else if c = 'd' then some ["د".data]
  else if c = 'e' then some ["ي".data, "".data]
  else if c = 'f' then some ["ف".data]
  else if c = 'g' then some ["ج".data, "غ".data, "ق".data]
  else if c = 'h' then some ["ه".data, "ح".data]
  else if c = 'i' then some ["ي".data]
  else if c = 'j' then some ["ج".data]
  else if c = 'k' then some ["ك".data]
  else if c = 'l' then some ["ل".data]
  else if c = 'm' then some ["م".data]
  else if c = 'n' then some ["ن".data]
  else if c = 'o' then some ["و".data, "".data]
  else if c = 'p' then some ["ب".data]
  else if c = 'q' then some ["ق".data]
  else if c = 'r' then some ["ر".data]
  else if c = 's' then some ["س".data, "ص".data]
  else if c = 't' then some ["ت".data, "ط".data]
  else if c = 'u' then some ["و".data, "".data]
  else if c = 'v' then some ["ف".data]
  else if c = 'w' then some ["و".data]
  else if c = 'x' then some ["كس".data, "ز".data]
  else if c = 'y' then some ["ي".data, "".data]
  else if c = 'z' then some ["ز".data, "ذ".data]
  else none

/-- The fallback singleMap[ch] or [ch] from transliterateToken. -/
def singleMapOr (c : Char) : List Str := (singleMap c).getD [[c]]

/-- Array.from(new Set(a)): deduplication keeping first occurrences. -/
def dedupFirstAux : List Str → List Str → List Str
  | _, [] => []
  | seen, x :: xs =>
    if seen.contains x then dedupFirstAux seen xs
    else x :: dedupFirstAux (x :: seen) xs

/-- Deduplication in first-occurrence order (JS Set insertion order). -/
def dedupFirst (l : List Str) : List Str := dedupFirstAux [] l

/-- Inner push loop of the variant expansion in transliterateToken: append
base + opt for each option, stopping right after the accumulator exceeds the
cap (the JS push-then-break pattern). -/
def pushOpts (base : Str) (cap : Nat) : List Str → List Str → List Str
  | acc, [] => acc
  | acc, opt :: opts =>
    let acc2 := acc ++ [base ++ opt]
    if cap < acc2.length then acc2 else pushOpts base cap acc2 opts

/-- Outer expansion loop of transliterateToken over the current variants, with
the same double break on the cap. -/
def expandLoop (options : List Str) (cap : Nat) : List Str → List Str → List Str
  | acc, [] => acc
  | acc, base :: bases =>
    let acc2 := pushOpts base cap acc options
    if cap < acc2.length then acc2 else expandLoop options cap acc2 bases

/-- The character scan of transliterateToken: numerals first, then digraphs
when two characters remain, then single letters, expanding the variant set at
each step (cap 120 inside the loops). -/
def transliterateGo : Str → List Str → List Str
  | [], variants => variants
  | [c], variants =>
    match digitMap c with
    | some options => expandLoop options 120 [] variants
    | none => expandLoop (singleMapOr c) 120 [] variants
  | c :: c2 :: rest, variants =>
    match digitMap c with
    | some options => transliterateGo (c2 :: rest) (expandLoop options 120 [] variants)
    | none =>
      match digraphMap c c2 with
      | some options => transliterateGo rest (expandLoop options 120 [] variants)
      | none => transliterateGo (c2 :: rest) (expandLoop (singleMapOr c) 120 [] variants)

/-- CognitiveSearch.transliterateToken: scan from the single variant made of
the empty string, deduplicate, and keep at most 60 candidates. -/
def transliterateToken (token : Str) : List Str :=
  (dedupFirst (transliterateGo token [[]])).take 60

/-- Inner push loop of the cross-token combination in
buildArabicCandidatesFromEnglish (cap 80, push-then-break). -/
def pushCombine (base : Str) : List Str → List Str → List Str
  | acc, [] => acc
  | acc, v :: vs =>
    let item := if base.isEmpty then v else base ++ (' ' :: v)
    let acc2 := acc ++ [item]
    if 80 < acc2.length then acc2 else pushCombine base acc2 vs

/-- Outer combination loop over the accumulated result strings. -/
def combineLoop (variants : List Str) : List Str → List Str → List Str
  | acc, [] => acc
  | acc, base :: bases =>
    let acc2 := pushCombine base acc variants
    if 80 < acc2.length then acc2 else combineLoop variants acc2 bases

/-- CognitiveSearch.buildArabicCandidatesFromEnglish: tokenize the lowered,
trimmed query on whitespace, transliterate each token, combine across tokens,
fall back to the query itself when empty, deduplicate and cap at 100. -/
def buildArabicCandidatesFromEnglish (englishQuery : Str) : List Str :=
  if englishQuery.isEmpty then []
  else
    let query := jsTrim (jsToLower englishQuery)
    let tokens := (query.splitOnP (fun c => jsWs c)).filter (fun w => !w.isEmpty)
    let tokenVariants := tokens.map transliterateToken
    let results := tokenVariants.foldl (fun res variants => combineLoop variants [] res) [[]]
    let results2 := if results.isEmpty then [query] else results
    (dedupFirst results2).take 100

/-- The dictionary-variant loop of getTransliterationScore (English query,
Arabic name): first early return wins — a similarity above 0.6, else 0.8 on
mutual containment, else the next variant. -/
def dictScan (query : Str) : List Str → Option ℚ
  | [] => none
  | v :: vs =>
    let s := getTextSimilarity query v
    if 0.6 < s then some s
    else if jsIncludes v query || jsIncludes query v then some 0.8
    else dictScan query vs

/-- The generated-candidate loop of getTransliterationScore: similarity above
0.65 on normalized strings, else 0.85 when the normalized candidate sits
inside the normalized name. -/
def genScan (arabicName : Str) : List Str → Option ℚ
  | [] => none
  | c :: cs =>
    let s := getTextSimilarity (normalizeText c) (normalizeText arabicName)
    if 0.65 < s then some s
    else if jsIncludes (normalizeText arabicName) (normalizeText c) then some 0.85
    else genScan arabicName cs

/-- The Arabic-variant loop of getTransliterationScore (Arabic-keyed query):
similarity above 0.6, else 0.8 on mutual containment. -/
def arabScan (arabicName : Str) : List Str → Option ℚ
  | [] => none
  | v :: vs =>
    let s := getTextSimilarity v arabicName
    if 0.6 < s then some s
    else if jsIncludes v arabicName || jsIncludes arabicName v then some 0.8
    else arabScan arabicName vs

/-- Variant loop of the final reverse-mapping pass: on a containment hit, a
similarity above 0.5 between the entry's Arabic key and the name returns the
similarity damped by 0.9; otherwise the loop continues. -/
def reverseScanVariants (query arabicName arabic : Str) : List Str → Option ℚ
  | [] => none
  | v :: vs =>
    if jsIncludes v query || jsIncludes query v then
      let s := getTextSimilarity arabic arabicName
      if 0.5 < s then some (s * 0.9)
      else reverseScanVariants query arabicName arabic vs
    else reverseScanVariants query arabicName arabic vs

/-- Entry loop of the final reverse-mapping pass of getTransliterationScore. -/
def reverseScan (query arabicName : Str) : List (Str × List Str) → Option ℚ
  | [] => none
  | e :: rest =>
    match reverseScanVariants query arabicName e.1 e.2 with
    | some s => some s
    | none => reverseScan query arabicName rest

/-- CognitiveSearch.getTransliterationScore: the three blocks in source order;
inside the first block the dictionary loop runs before the generative loop and
whichever returns first ends the call. -/
def getTransliterationScore (query arabicName : Str) : ℚ :=
  let step1 : Option ℚ :=
    if isArabic arabicName && !isArabic query then
      match lookupArabic arabicName with
      | some variants =>
        match dictScan query variants with
        | some s => some s
        | none => genScan arabicName (buildArabicCandidatesFromEnglish query)
      | none => genScan arabicName (buildArabicCandidatesFromEnglish query)
    else none
  match step1 with
  | some s => s
  | none =>
    let step2 : Option ℚ :=
      if !isArabic query && !(englishToArabic query).isEmpty then
        arabScan arabicName (englishToArabic query)
      else none
    match step2 with
    | some s => s
    | none =>
      match reverseScan query arabicName arabicToEnglish with
      | some s => s
      | none => 0

/-- The Person record of the data model (fields used by the embedded code). -/
structure Person where
  id : String
  name : Str
  altNames : List Str
  gender : Option String
  birthYear : Option Int
  deathYear : Option Int
  fatherId : Option String
  motherId : Option String
  spouseIds : List String
deriving DecidableEq

/-- One iteration of the alternate-names loop of calculateMatchScore: the
alternate similarity weighted by 0.8 and the containment bonus 0.85 folded
into the running maximum. -/
def altStep (query : Str) (acc : ℚ) (altName : Str) : ℚ :=
  let altScore := getTextSimilarity query (normalizeText (jsToLower altName))
  let a1 := max acc (altScore * 0.8)
  let normalizedAlt := normalizeText (jsToLower altName)
  if jsIncludes normalizedAlt query || jsIncludes query normalizedAlt then
    max a1 0.85 else a1

/-- CognitiveSearch.calculateMatchScore: running maximum over the primary-name
similarity, the containment bonus 0.9, the alternate names (damped 0.8, bonus
0.85) and the transliteration score on the raw name. -/
def calculateMatchScore (query : Str) (person : Person) : ℚ :=
  let nameScore := getTextSimilarity query (normalizeText (jsToLower person.name))
  let m1 := max 0 nameScore
  let normalizedName := normalizeText (jsToLower person.name)
  let m2 := if jsIncludes normalizedName query || jsIncludes query normalizedName then
      max m1 0.9 else m1
  let m3 := person.altNames.foldl (altStep query) m2
  max m3 (getTransliterationScore query person.name)

/-- The own property names of Object.prototype: indexing a plain JS object
with one of these keys and no own entry yields the inherited (truthy,
non-iterable) prototype value instead of undefined. -/
def jsProtoNames : List String :=
  ["constructor", "hasOwnProperty", "isPrototypeOf", "propertyIsEnumerable",
   "toLocaleString", "toString", "valueOf", "__defineGetter__",
   "__defineSetter__", "__lookupGetter__", "__lookupSetter__", "__proto__"]

/-- The Object.prototype property names as character lists. -/
def jsProtoKeys : List Str := jsProtoNames.map String.data

/-- The condition under which this.englishToArabic[query] is a truthy
prototype-chain hit: the query is Latin script, the dictionary has no own
entry for it, and the key names an Object.prototype property.  The for...of
over the inherited value then raises a TypeError. -/
def translitProtoThrow (query : Str) : Bool :=
  !isArabic query && (englishToArabic query).isEmpty && jsProtoKeys.contains query

/-- getTransliterationScore under real JS object-index semantics: identical to
the pure model except that the second block indexes the englishToArabic object
with the raw query, so an Object.prototype property name with no own entry is
truthy, enters the block, and its for...of throws (modelled as the error
outcome). -/
def getTransliterationScoreJs (query arabicName : Str) : Except Unit ℚ :=
  let step1 : Option ℚ :=
    if isArabic arabicName && !isArabic query then
      match lookupArabic arabicName with
      | some variants =>
        match dictScan query variants with
        | some s => some s
        | none => genScan arabicName (buildArabicCandidatesFromEnglish query)
      | none => genScan arabicName (buildArabicCandidatesFromEnglish query)
    else none
  match step1 with
  | some s => Except.ok s
  | none =>
    if translitProtoThrow query then Except.error ()
    else
      let step2 : Option ℚ :=
        if !isArabic query && !(englishToArabic query).isEmpty then
          arabScan arabicName (englishToArabic query)
        else none
      match step2 with
      | some s => Except.ok s
      | none =>
        match reverseScan query arabicName arabicToEnglish with
        | some s => Except.ok s
        | none => Except.ok 0

/-- calculateMatchScore under real JS object-index semantics: the pure running
maximum, except that the transliteration call can raise, which propagates. -/
def calculateMatchScoreJs (query : Str) (person : Person) : Except Unit ℚ :=
  let nameScore := getTextSimilarity query (normalizeText (jsToLower person.name))
  let m1 := max 0 nameScore
  let normalizedName := normalizeText (jsToLower person.name)
  let m2 := if jsIncludes normalizedName query || jsIncludes query normalizedName then
      max m1 0.9 else m1
  let m3 := person.altNames.foldl (altStep query) m2
  match getTransliterationScoreJs query person.name with
  | Except.ok t => Except.ok (max m3 t)
  | Except.error e => Except.error e

/-- A person whose name is an Object.prototype property name. -/
def demoProtoPerson : Person :=
  ⟨"P1", "constructor".data, [], none, none, none, none, none, []⟩

/-- CognitiveSearch.getMatchType: the four script-combination labels. -/
def getMatchType (query : Str) (person : Person) : String :=
  if isArabic query && isArabic person.name then "Exact Arabic Match"
  else if !isArabic query && isArabic person.name then "English to Arabic Transliteration"
  else if isArabic query && !isArabic person.name then "Arabic to English Transliteration"
  else "English Match"

/-- One entry of a search result list. -/
structure SearchResult where
  person : Person
  score : ℚ
  matchType : String
deriving DecidableEq

/-- CognitiveSearch.search: empty or all-whitespace queries answer the empty
list; otherwise every person with positive score is collected and the list is
sorted by descending score (JS sort is stable; mergeSort with the descending
comparison models it). -/
def search (query : Str) (people : List Person) : List SearchResult :=
  if query.isEmpty || (jsTrim query).isEmpty then []
  else
    let normalizedQuery := normalizeText (jsToLower (jsTrim query))
    let results := people.filterMap (fun person =>
      let score := calculateMatchScore normalizedQuery person
      if 0 < score then some ⟨person, score, getMatchType normalizedQuery person⟩
      else none)
    results.mergeSort (fun a b => b.score ≤ a.score)

/-- CognitiveSearch.getSuggestions: queries shorter than two characters answer
the empty list; otherwise names, alternates and dictionary variants containing
the normalized query are collected in Set insertion order, capped at 10. -/
def getSuggestions (query : Str) (people : List Person) : List Str :=
  if query.isEmpty || query.length < 2 then []
  else
    let normalizedQuery := normalizeText (jsToLower query)
    let collected := people.foldl (fun acc person =>
      let acc1 := if jsIncludes (normalizeText (jsToLower person.name)) normalizedQuery then
          acc ++ [person.name] else acc
      let acc2 := person.altNames.foldl (fun a altName =>
          if jsIncludes (normalizeText (jsToLower altName)) normalizedQuery then
            a ++ [altName] else a) acc1
      if isArabic person.name then
        match lookupArabic person.name with
        | some variants => variants.foldl (fun a v =>
            if jsIncludes (jsToLower v) normalizedQuery then a ++ [v] else a) acc2
        | none => acc2
      else acc2) []
    (dedupFirst collected).take 10

/-- A Marriage record. -/
structure Marriage where
  id : String
  spouse1Id : String
  spouse2Id : String
  children : List String
deriving DecidableEq

/-- The in-memory data structure {people, marriages} (the alias table plays no
role in the embedded operations). -/
structure FamilyData where
  people : List Person
  marriages : List Marriage
deriving DecidableEq

/-- FamilyTreeGL.generateMarriageId: the two ids sorted by the JS default
string comparison (code-unit lexicographic; on the BMP identifiers in play it
coincides with the character order used here), joined under the M- prefix. -/
def generateMarriageId (s1 s2 : String) : String :=
  let lo := if s1 ≤ s2 then s1 else s2
  let hi := if s1 ≤ s2 then s2 else s1
  "M-" ++ lo ++ "_" ++ hi

/-- The people Map of the FamilyTreeGL constructor: built by insertion over
the array, so on duplicate ids the later entry wins — lookup scans the
reversed list. -/
def lookupPerson (people : List Person) (id : String) : Option Person :=
  people.reverse.find? (fun p => p.id == id)

/-- FamilyTreeGL.computeGeneration with explicit fuel standing for the call
stack: an unknown id scores 0, a non-null parent id always adds one link on
top of the parent's own generation (the memoization cache only short-circuits
repeated work and cannot change these values on acyclic data). -/
def computeGenerationFuel (people : List Person) : Nat → String → Nat
  | 0, _ => 0
  | fuel + 1, id =>
    match lookupPerson people id with
    | none => 0
    | some p =>
      let fatherGen := match p.fatherId with
        | some f => computeGenerationFuel people fuel f + 1
        | none => 0
      let motherGen := match p.motherId with
        | some m => computeGenerationFuel people fuel m + 1
        | none => 0
      max fatherGen motherGen

/-- computeGeneration at the fuel sufficient for any acyclic dataset. -/
def computeGeneration (people : List Person) (id : String) : Nat :=
  computeGenerationFuel people (people.length + 1) id

/-- Value returned by FamilyTreeGL.computeGeneration under real JS semantics:
a number, or the non-numeric junk produced when the memo-object index
this.generationCache[id] hits an inherited Object.prototype property (the
inherited function or prototype object itself, and the NaN that arithmetic on
such a value yields further up the call chain). -/
inductive JsGen where
  | num (n : Nat)
  | junk
deriving DecidableEq

/-- The +1 on a parent generation: numeric on numbers, junk-preserving (a
function or object plus one is a non-numeric string). -/
def jsGenAdd1 : JsGen → JsGen
  | JsGen.num n => JsGen.num (n + 1)
  | JsGen.junk => JsGen.junk

/-- Math.max on the two parent generations: NaN (junk) absorbs. -/
def jsGenMax : JsGen → JsGen → JsGen
  | JsGen.num a, JsGen.num b => JsGen.num (max a b)
  | _, _ => JsGen.junk

/-- The JS truthiness test on an optional string field: an empty string is
falsy and behaves like an absent value. -/
def jsTruthy : Option String → Option String
  | some s => if s = "" then none else some s
  | none => none

/-- FamilyTreeGL.computeGeneration under real JS semantics, with explicit fuel
for the call stack: an id naming an Object.prototype property hits the
inherited value through the memo object's prototype chain (and, because the
function returns before the memo write, every call on such an id does so);
parent ids are truthiness-tested, so an empty-string parent id contributes no
link.  The memo entries written for other ids on acyclic data only replay the
value this recursion computes, so they are not modelled. -/
def computeGenerationJsFuel (people : List Person) : Nat → String → JsGen
  | 0, _ => JsGen.num 0
  | fuel + 1, id =>
    if jsProtoNames.contains id then JsGen.junk
    else
      match lookupPerson people id with
      | none => JsGen.num 0
      | some p =>
        jsGenMax
          (match jsTruthy p.fatherId with
           | some f => jsGenAdd1 (computeGenerationJsFuel people fuel f)
           | none => JsGen.num 0)
          (match jsTruthy p.motherId with
           | some m => jsGenAdd1 (computeGenerationJsFuel people fuel m)
           | none => JsGen.num 0)

/-- computeGeneration under JS semantics at the fuel sufficient for any
acyclic dataset. -/
def computeGenerationJs (people : List Person) (id : String) : JsGen :=
  computeGenerationJsFuel people (people.length + 1) id

/-- A person whose only parent reference is the falsy empty string. -/
def demoEmptyFather : List Person :=
  [⟨"E", "e".data, [], none, none, none, some "", none, []⟩]

/-- One step along a parent-id field: the record found at a carries b as its
fatherId or motherId. -/
def parentLink (people : List Person) (a b : String) : Prop :=
  ∃ p, lookupPerson people a = some p ∧ (p.fatherId = some b ∨ p.motherId = some b)

/-- A chain of parent ids starting at the head; only the last entry may fail
to resolve. -/
def isChain (people : List Person) : List String → Prop
  | [] => False
  | [_] => True
  | a :: b :: rest => parentLink people a b ∧ isChain people (b :: rest)

/-- Acyclicity of the parent-reference graph: no chain revisits an id. -/
def acyclicParents (people : List Person) : Prop :=
  ∀ l, isChain people l → l.Nodup

/-- The updatedData object handed to AdminPanel.updatePerson: absent fields
keep the stored value, present fields overwrite it (object spread). -/
structure PersonUpdate where
  id : Option String
  name : Option Str
  altNames : Option (List Str)
  gender : Option (Option String)
  birthYear : Option (Option Int)
  deathYear : Option (Option Int)
  fatherId : Option (Option String)
  motherId : Option (Option String)
  spouseIds : Option (List String)
deriving DecidableEq

/-- An update object that touches nothing. -/
def PersonUpdate.empty : PersonUpdate :=
  ⟨none, none, none, none, none, none, none, none, none⟩

/-- The spread merge {...person, ...updatedData}. -/
def applyUpdate (p : Person) (u : PersonUpdate) : Person :=
  { id := u.id.getD p.id
    name := u.name.getD p.name
    altNames := u.altNames.getD p.altNames
    gender := u.gender.getD p.gender
    birthYear := u.birthYear.getD p.birthYear
    deathYear := u.deathYear.getD p.deathYear
    fatherId := u.fatherId.getD p.fatherId
    motherId := u.motherId.getD p.motherId
    spouseIds := u.spouseIds.getD p.spouseIds }

/-- AdminPanel.updatePerson on the data: the person at the first index whose
id matches is replaced by the merged record; a missing id leaves the data
unchanged (the function only reports an error). -/
def updatePersonData (d : FamilyData) (personId : String) (u : PersonUpdate) :
    FamilyData :=
  match d.people.findIdx? (fun p => p.id == personId) with
  | none => d
  | some i =>
    match d.people.get? i with
    | none => d
    | some p => { d with people := d.people.set i (applyUpdate p u) }

/-- The per-person cleanup loop of deletePerson: null out father/mother
references to the deleted id and filter it from the spouse list. -/
def scrubRefs (personId : String) (p : Person) : Person :=
  { p with
    fatherId := if p.fatherId = some personId then none else p.fatherId
    motherId := if p.motherId = some personId then none else p.motherId
    spouseIds := p.spouseIds.filter (fun sid => sid != personId) }

/-- AdminPanel.deletePerson on the data: drop the person, drop marriages where
the id is a spouse, null out father/mother references to it and filter it from
spouse lists.  Marriage children lists are left untouched, as in the source. -/
def deletePersonData (d : FamilyData) (personId : String) : FamilyData :=
  let people1 := d.people.filter (fun p => p.id != personId)
  let marriages1 := d.marriages.filter (fun m =>
    m.spouse1Id != personId && m.spouse2Id != personId)
  let people2 := people1.map (scrubRefs personId)
  { people := people2, marriages := marriages1 }

/-- An id resolving to a Person of the set. -/
abbrev resolves (people : List Person) (id : String) : Prop :=
  ∃ p ∈ people, p.id = id

/-- A null reference is fine, a non-null one must resolve. -/
def optionResolves (people : List Person) : Option String → Prop
  | some f => resolves people f
  | none => True

instance (people : List Person) (o : Option String) :
    Decidable (optionResolves people o) :=
  match o with
  | some f => inferInstanceAs (Decidable (resolves people f))
  | none => Decidable.isTrue trivial

/-- Every parent and spouse reference on every person resolves. -/
abbrev personRefsValid (d : FamilyData) : Prop :=
  ∀ p ∈ d.people,
    optionResolves d.people p.fatherId ∧ optionResolves d.people p.motherId ∧
    (∀ s ∈ p.spouseIds, resolves d.people s)

/-- Both spouses of every marriage resolve. -/
abbrev marriageSpousesValid (d : FamilyData) : Prop :=
  ∀ m ∈ d.marriages, resolves d.people m.spouse1Id ∧ resolves d.people m.spouse2Id

/-- Every child reference of every marriage resolves. -/
abbrev marriageChildrenValid (d : FamilyData) : Prop :=
  ∀ m ∈ d.marriages, ∀ c ∈ m.children, resolves d.people c

/-- No person references itself as parent or spouse. -/
abbrev noSelfRefs (d : FamilyData) : Prop :=
  ∀ p ∈ d.people, p.fatherId ≠ some p.id ∧ p.motherId ≠ some p.id ∧ p.id ∉ p.spouseIds

/-- The relationship invariants of the specification's data model: no dangling
person, marriage-spouse or marriage-child reference and no self references. -/
abbrev relationshipInvariants (d : FamilyData) : Prop :=
  personRefsValid d ∧ marriageSpousesValid d ∧ marriageChildrenValid d ∧ noSelfRefs d

/-- A two-person dataset with no relationships, used to exercise the admin
operations. -/
def demoDataUpdate : FamilyData :=
  ⟨[⟨"A", "a".data, [], none, none, none, none, none, []⟩,
    ⟨"B", "b".data, [], none, none, none, none, none, []⟩], []⟩

/-- An update writing a dangling father reference. -/
def demoDanglingUpdate : PersonUpdate :=
  ⟨none, none, none, none, none, none, some (some "ZZZ"), none, none⟩

/-- A married couple with one child, recorded in the marriage children list. -/
def demoDataDelete : FamilyData :=
  ⟨[⟨"A", "a".data, [], none, none, none, none, none, ["B"]⟩,
    ⟨"B", "b".data, [], none, none, none, none, none, ["A"]⟩,
    ⟨"C", "c".data, [], none, none, none, some "A", some "B", []⟩],
   [⟨"M-A_B", "A", "B", ["C"]⟩]⟩

/-- A childless married couple. -/
def demoDataCouple : FamilyData :=
  ⟨[⟨"A", "a".data, [], none, none, none, none, none, ["B"]⟩,
    ⟨"B", "b".data, [], none, none, none, none, none, ["A"]⟩],
   [⟨"M-A_B", "A", "B", []⟩]⟩

/-- Spec-side reading of the dictionary path of the cross-script matcher: the
score the dictionary loop would deliver on its own (0 when it yields nothing). -/
def dictPathScore (query arabicName : Str) : ℚ :=
  match lookupArabic arabicName with
  | some variants => (dictScan query variants).getD 0
  | none => 0

/-- Spec-side reading of the generative path: the score the generated-candidate
loop would deliver on its own (0 when it yields nothing). -/
def genPathScore (query arabicName : Str) : ℚ :=
  (genScan arabicName (buildArabicCandidatesFromEnglish query)).getD 0

/-- The outcome of the dictionary path alone, as an optional score. -/
def dictPathResult (query arabicName : Str) : Option ℚ :=
  match lookupArabic arabicName with
  | some variants => dictScan query variants
  | none => none

theorem levSpec_nil_left (ys : Str) : levSpec [] ys = ys.length := by
  cases ys <;> simp [levSpec]

theorem levSpec_nil_right (xs : Str) : levSpec xs [] = xs.length := by
  cases xs <;> simp [levSpec]

theorem levSpec_cons_cons (x y : Char) (xs ys : Str) :
    levSpec (x :: xs) (y :: ys) =
      if x = y then levSpec xs ys
      else 1 + min (levSpec xs ys) (min (levSpec (x :: xs) ys) (levSpec xs (y :: ys))) := by
  rw [levSpec]

theorem levSpec_self (xs : Str) : levSpec xs xs = 0 := by
  induction xs with
  | nil => simp [levSpec]
  | cons x xs ih => rw [levSpec_cons_cons, if_pos rfl, ih]

theorem levSpec_symm (xs ys : Str) : levSpec xs ys = levSpec ys xs := by
  induction xs generalizing ys with
  | nil => rw [levSpec_nil_left, levSpec_nil_right]
  | cons x xs ih =>
    induction ys with
    | nil => rw [levSpec_nil_left, levSpec_nil_right]
    | cons y ys ih2 =>
      rw [levSpec_cons_cons, levSpec_cons_cons]
      rcases eq_or_ne x y with h | h
      · rw [if_pos h, if_pos h.symm, ih]
      · rw [if_neg h, if_neg (Ne.symm h), ih ys, ih2, ih (y :: ys)]
        omega

set_option maxHeartbeats 800000 in
/-- The edit-distance recurrence also holds when both strings grow at the end:
the key step for relating the prefix-indexed matrix to the head-recursive
specification. -/
theorem levSpec_snoc (x y : Char) (xs ys : Str) :
    levSpec (xs ++ [x]) (ys ++ [y]) =
      if x = y then levSpec xs ys
      else 1 + min (levSpec xs ys)
        (min (levSpec (xs ++ [x]) ys) (levSpec xs (ys ++ [y]))) := by
  induction xs generalizing ys with
  | nil =>
    induction ys with
    | nil =>
      rcases eq_or_ne x y with h | h <;>
        simp [levSpec_cons_cons, levSpec_nil_left, levSpec_nil_right, h]
    | cons b ys ih2 =>
      simp only [List.nil_append] at ih2 ⊢
      simp only [List.cons_append] at ih2 ⊢
      rw [levSpec_cons_cons x b [] (ys ++ [y]), levSpec_cons_cons x b [] ys, ih2]
      rcases eq_or_ne x y with rfl | h
      · rcases eq_or_ne x b with rfl | hb
        · simp [levSpec_nil_left, levSpec_nil_right] <;> omega
        · simp [hb, Ne.symm hb, levSpec_nil_left, levSpec_nil_right] <;> omega
      · rcases eq_or_ne x b with rfl | hb
        · simp [h, Ne.symm h, levSpec_nil_left, levSpec_nil_right] <;> omega
        · simp [h, hb, Ne.symm h, Ne.symm hb, levSpec_nil_left,
            levSpec_nil_right] <;> omega
  | cons a xs ih =>
    induction ys with
    | nil =>
      have hx1 := ih []
      simp only [List.nil_append] at hx1 ⊢
      simp only [List.cons_append] at hx1 ⊢
      rw [levSpec_cons_cons a y (xs ++ [x]) [], levSpec_cons_cons a y xs [], hx1]
      rcases eq_or_ne x y with rfl | h
      · rcases eq_or_ne a x with rfl | hb
        · simp [levSpec_nil_left, levSpec_nil_right] <;> omega
        · simp [hb, Ne.symm hb, levSpec_nil_left, levSpec_nil_right] <;> omega
      · rcases eq_or_ne a y with rfl | hb
        · simp [h, Ne.symm h, levSpec_nil_left, levSpec_nil_right] <;> omega
        · simp [h, hb, Ne.symm h, Ne.symm hb, levSpec_nil_left,
            levSpec_nil_right] <;> omega
    | cons b ys ih2 =>
      have h1 := ih ys
      have h2 := ih (b :: ys)
      simp only [List.cons_append] at ih2 h1 h2 ⊢
      rw [levSpec_cons_cons a b (xs ++ [x]) (ys ++ [y]),
        levSpec_cons_cons a b xs ys,
        levSpec_cons_cons a b (xs ++ [x]) ys,
        levSpec_cons_cons a b xs (ys ++ [y])]
      rcases eq_or_ne x y with h | h
      · simp only [if_pos h] at h1 h2 ih2 ⊢
        rcases eq_or_ne a b with hab | hab
        · simp only [if_pos hab]
          exact h1
        · simp only [if_neg hab]
          rw [h1, h2, ih2]
      · simp only [if_neg h] at h1 h2 ih2 ⊢
        rcases eq_or_ne a b with hab | hab
        · simp only [if_pos hab]
          rw [h1]
        · simp only [if_neg hab]
          rw [h1, h2, ih2]
          clear h1 h2 ih2 ih
          generalize levSpec xs ys = n1
          generalize levSpec (xs ++ [x]) ys = n2
          generalize levSpec xs (ys ++ [y]) = n3
          generalize levSpec (a :: xs) ys = n4
          generalize levSpec xs (b :: ys) = n5
          generalize levSpec (a :: (xs ++ [x])) ys = n6
          generalize levSpec xs (b :: (ys ++ [y])) = n7
          generalize levSpec (a :: xs) (ys ++ [y]) = n8
          generalize levSpec (xs ++ [x]) (b :: ys) = n9
          simp only [min_add_add_left]
          congr 1
          congr 1
          ac_rfl

/-- Edit distance is invariant under reversing both strings. -/
theorem levSpec_reverse (xs ys : Str) :
    levSpec xs.reverse ys.reverse = levSpec xs ys := by
  induction xs generalizing ys with
  | nil =>
    simp [levSpec_nil_left]
  | cons a xs ih =>
    induction ys with
    | nil =>
      simp [levSpec_nil_right]
    | cons b ys ih2 =>
      rw [List.reverse_cons, List.reverse_cons, levSpec_snoc, levSpec_cons_cons,
        ← List.reverse_cons, ← List.reverse_cons]
      rcases eq_or_ne a b with hab | hab
      · rw [if_pos hab, if_pos hab, ih]
      · rw [if_neg hab, if_neg hab, ih ys, ih2, ih (b :: ys)]

theorem levRowRest_spec (c2 : Char) (s1curr rp rd : Str) :
    levRowRest c2 s1curr (levSpec rp rd :: rowTail rp rd s1curr)
        (levSpec (c2 :: rp) rd) =
      rowTail (c2 :: rp) rd s1curr := by
  induction s1curr generalizing rd with
  | nil => rfl
  | cons c cs ih =>
    rw [rowTail, rowTail, levRowRest]
    have hentry :
        (if c2 = c then levSpec rp rd
          else min (levSpec rp rd + 1)
            (min (levSpec (c2 :: rp) rd + 1)
              ((levSpec rp (c :: rd) :: rowTail rp (c :: rd) cs).headD 0 + 1))) =
        levSpec (c2 :: rp) (c :: rd) := by
      rw [levSpec_cons_cons]
      rcases eq_or_ne c2 c with h | h
      · rw [if_pos h, if_pos h]
      · rw [if_neg h, if_neg h, List.headD_cons]
        omega
    rw [hentry, ih]

theorem levRow_spec (s1 rp : Str) (c2 : Char) :
    levRow s1 c2 (rowFull s1 rp) (rp.length + 1) = rowFull s1 (c2 :: rp) := by
  have h0 : levSpec (c2 :: rp) [] = rp.length + 1 := by
    rw [levSpec_nil_right]
    simp
  rw [levRow, rowFull, rowFull, ← h0, levRowRest_spec]

theorem levLoop_spec (s1 : Str) (s2curr rp : Str) :
    levLoop s1 (rowFull s1 rp) rp.length s2curr =
      rowFull s1 (s2curr.reverse ++ rp) := by
  induction s2curr generalizing rp with
  | nil => rfl
  | cons c rest ih =>
    rw [levLoop, levRow_spec]
    have := ih (c :: rp)
    simp only [List.length_cons] at this
    rw [this]
    simp

theorem rowTail_range (s1curr rd : Str) :
    rowTail [] rd s1curr = List.range' (rd.length + 1) s1curr.length := by
  induction s1curr generalizing rd with
  | nil => rfl
  | cons c cs ih =>
    rw [rowTail, levSpec_nil_left, ih, List.length_cons, List.length_cons,
      List.range'_succ]

theorem rowFull_nil (s1 : Str) : rowFull s1 [] = List.range (s1.length + 1) := by
  rw [rowFull, rowTail_range, levSpec_nil_left, List.range_eq_range',
    List.range'_succ]
  rfl

theorem rowTail_getLastD (s1curr rp rd : Str) (d : Nat) :
    (levSpec rp rd :: rowTail rp rd s1curr).getLastD d =
      levSpec rp (s1curr.reverse ++ rd) := by
  induction s1curr generalizing rd d with
  | nil => rfl
  | cons c cs ih =>
    rw [rowTail, List.getLastD_cons, ih]
    simp

/-- The source's matrix computes the textbook edit distance. -/
theorem levenshteinDistance_eq_levSpec (s1 s2 : Str) :
    levenshteinDistance s1 s2 = levSpec s1 s2 := by
  rw [levenshteinDistance, ← rowFull_nil, ← List.length_nil (α := Char),
    levLoop_spec]
  rw [List.length_nil, List.append_nil, rowFull, rowTail_getLastD]
  rw [List.append_nil, levSpec_symm, levSpec_reverse]

/-- C3: getTextSimilarity is one minus the textbook unit-cost edit distance
(levSpec) divided by the longer length, and equal strings score exactly 1
(for two empty strings the quotient is the rational-division junk value 0, so
the formula still reads 1). -/
theorem c3_similarity_is_normalized_edit_distance :
    (∀ a b : Str, getTextSimilarity a b =
      1 - (levSpec a b : ℚ) / ((max a.length b.length : ℕ) : ℚ)) ∧
    (∀ a : Str, getTextSimilarity a a = 1) := by
  have main : ∀ a b : Str, getTextSimilarity a b =
      1 - (levSpec a b : ℚ) / ((max a.length b.length : ℕ) : ℚ) := by
    intro a b
    by_cases hab : a = b
    · subst hab
      rw [getTextSimilarity, if_pos rfl, levSpec_self]
      simp
    · rw [getTextSimilarity, if_neg hab]
      by_cases h1 : a.length = 0
      · rw [if_pos h1]
        have ha : a = [] := List.length_eq_zero.mp h1
        subst ha
        have hb0 : b.length ≠ 0 := fun h => hab (List.length_eq_zero.mp h).symm
        have hbq : ((b.length : ℚ)) ≠ 0 := Nat.cast_ne_zero.mpr hb0
        have hmax : max (List.length ([] : Str)) b.length = b.length := by
          simp
        rw [levSpec_nil_left, hmax, div_self hbq]
        norm_num
      · rw [if_neg h1]
        by_cases h2 : b.length = 0
        · rw [if_pos h2]
          have hbnil : b = [] := List.length_eq_zero.mp h2
          subst hbnil
          have haq : ((a.length : ℚ)) ≠ 0 := Nat.cast_ne_zero.mpr h1
          have hmax : max a.length (List.length ([] : Str)) = a.length := by
            simp
          rw [levSpec_nil_right, hmax, div_self haq]
          norm_num
        · rw [if_neg h2, levenshteinDistance_eq_levSpec]
  refine ⟨main, fun a => ?_⟩
  rw [getTextSimilarity, if_pos rfl]

/-- C5: generateMarriageId is symmetric in the two spouse ids: the pair is
sorted before the id string is assembled. -/
theorem c5_generateMarriageId_comm (a b : String) :
    generateMarriageId a b = generateMarriageId b a := by
  rw [generateMarriageId, generateMarriageId]
  by_cases h1 : a ≤ b <;> by_cases h2 : b ≤ a
  · have h := le_antisymm h1 h2
    subst h
    rfl
  · simp [h1, h2]
  · simp [h1, h2]
  · rcases le_total a b with h | h <;> contradiction

/-- C6: transliterateToken never returns more than 60 candidate strings and
buildArabicCandidatesFromEnglish never returns more than 100. -/
theorem c6_candidate_caps :
    (∀ token : Str, (transliterateToken token).length ≤ 60) ∧
    (∀ q : Str, (buildArabicCandidatesFromEnglish q).length ≤ 100) := by
  constructor
  · intro token
    rw [transliterateToken]
    exact List.length_take_le _ _
  · intro q
    rw [buildArabicCandidatesFromEnglish]
    split
    · simp
    · exact List.length_take_le _ _

/-- Every similarity score is at most 1. -/
theorem getTextSimilarity_le_one (a b : Str) : getTextSimilarity a b ≤ 1 := by
  rw [getTextSimilarity]
  split
  · exact le_refl 1
  split
  · norm_num
  split
  · norm_num
  · have h1 : (0 : ℚ) ≤ (levenshteinDistance a b : ℚ) := Nat.cast_nonneg _
    have h2 : (0 : ℚ) ≤ ((max a.length b.length : ℕ) : ℚ) := Nat.cast_nonneg _
    have := div_nonneg h1 h2
    linarith

/-- A value delivered by the dictionary-variant loop is at most 1. -/
theorem dictScan_some_le_one (q : Str) (l : List Str) (s : ℚ)
    (h : dictScan q l = some s) : s ≤ 1 := by
  induction l with
  | nil => simp [dictScan] at h
  | cons v vs ih =>
    simp only [dictScan] at h
    split at h
    · cases h
      exact getTextSimilarity_le_one q v
    · split at h
      · cases h
        norm_num
      · exact ih h

/-- A value delivered by the generated-candidate loop is at most 1. -/
theorem genScan_some_le_one (n : Str) (l : List Str) (s : ℚ)
    (h : genScan n l = some s) : s ≤ 1 := by
  induction l with
  | nil => simp [genScan] at h
  | cons c cs ih =>
    simp only [genScan] at h
    split at h
    · cases h
      exact getTextSimilarity_le_one _ _
    · split at h
      · cases h
        norm_num
      · exact ih h

/-- A value delivered by the Arabic-variant loop is at most 1. -/
theorem arabScan_some_le_one (n : Str) (l : List Str) (s : ℚ)
    (h : arabScan n l = some s) : s ≤ 1 := by
  induction l with
  | nil => simp [arabScan] at h
  | cons v vs ih =>
    simp only [arabScan] at h
    split at h
    · cases h
      exact getTextSimilarity_le_one _ _
    · split at h
      · cases h
        norm_num
      · exact ih h

/-- A value delivered by the reverse-mapping variant loop is at most 1. -/
theorem reverseScanVariants_some_le_one (q n ar : Str) (l : List Str) (s : ℚ)
    (h : reverseScanVariants q n ar l = some s) : s ≤ 1 := by
  induction l with
  | nil => simp [reverseScanVariants] at h
  | cons v vs ih =>
    simp only [reverseScanVariants] at h
    split at h
    · split at h
      · cases h
        rename_i hgt
        have hle := getTextSimilarity_le_one ar n
        nlinarith
      · exact ih h
    · exact ih h

/-- A value delivered by the reverse-mapping entry loop is at most 1. -/
theorem reverseScan_some_le_one (q n : Str) (l : List (Str × List Str)) (s : ℚ)
    (h : reverseScan q n l = some s) : s ≤ 1 := by
  induction l with
  | nil => simp [reverseScan] at h
  | cons e rest ih =>
    simp only [reverseScan] at h
    split at h
    · cases h
      rename_i s2 hs2
      exact reverseScanVariants_some_le_one _ _ _ _ _ hs2
    · exact ih h

/-- The tail of getTransliterationScore (blocks two and three) stays at
most 1 whenever the second block can only deliver bounded values. -/
theorem translitTail_le_one (q n : Str) (o : Option ℚ)
    (ho : ∀ s, o = some s → s ≤ 1) :
    (match o with
     | some s => s
     | none =>
       match reverseScan q n arabicToEnglish with
       | some s => s
       | none => 0) ≤ 1 := by
  cases o with
  | some s => exact ho s rfl
  | none =>
    cases hr : reverseScan q n arabicToEnglish with
    | some s =>
      simp only [hr]
      exact reverseScan_some_le_one _ _ _ _ hr
    | none =>
      simp only [hr]
      norm_num

/-- The transliteration score never exceeds 1. -/
theorem getTransliterationScore_le_one (q n : Str) :
    getTransliterationScore q n ≤ 1 := by
  rw [getTransliterationScore]
  split
  · rename_i s h1
    split at h1
    · split at h1
      · split at h1
        · cases h1
          rename_i hd
          exact dictScan_some_le_one _ _ _ hd
        · exact genScan_some_le_one _ _ _ h1
      · exact genScan_some_le_one _ _ _ h1
    · cases h1
  · refine translitTail_le_one q n _ (fun s hs => ?_)
    split at hs
    · exact arabScan_some_le_one _ _ _ hs
    · cases hs

/-- The fold step of the alternate-names loop never decreases the score. -/
theorem altStep_ge (q : Str) (acc : ℚ) (alt : Str) : acc ≤ altStep q acc alt := by
  rw [altStep]
  split
  · exact le_trans (le_max_left _ _) (le_max_left _ _)
  · exact le_max_left _ _

/-- The fold step of the alternate-names loop keeps the score at most 1. -/
theorem altStep_le_one (q : Str) (acc : ℚ) (alt : Str) (h : acc ≤ 1) :
    altStep q acc alt ≤ 1 := by
  have hsim := getTextSimilarity_le_one q (normalizeText (jsToLower alt))
  have hdamp : getTextSimilarity q (normalizeText (jsToLower alt)) * 0.8 ≤ 1 := by
    nlinarith
  rw [altStep]
  split
  · refine max_le (max_le h hdamp) (by norm_num)
  · exact max_le h hdamp

/-- The alternate-names fold never decreases the score. -/
theorem foldl_altStep_ge (q : Str) (l : List Str) (init : ℚ) :
    init ≤ l.foldl (altStep q) init := by
  induction l generalizing init with
  | nil => exact le_refl _
  | cons a l ih =>
    exact le_trans (altStep_ge q init a) (ih _)

/-- The alternate-names fold keeps the score at most 1. -/
theorem foldl_altStep_le_one (q : Str) (l : List Str) (init : ℚ) (h : init ≤ 1) :
    l.foldl (altStep q) init ≤ 1 := by
  induction l generalizing init with
  | nil => exact h
  | cons a l ih =>
    exact ih _ (altStep_le_one q init a h)

/-- The overall match score never exceeds 1. -/
theorem calculateMatchScore_le_one (q : Str) (p : Person) :
    calculateMatchScore q p ≤ 1 := by
  rw [calculateMatchScore]
  have hname := getTextSimilarity_le_one q (normalizeText (jsToLower p.name))
  have hm1 : max 0 (getTextSimilarity q (normalizeText (jsToLower p.name))) ≤ 1 :=
    max_le (by norm_num) hname
  have hm2 : (if jsIncludes (normalizeText (jsToLower p.name)) q ||
        jsIncludes q (normalizeText (jsToLower p.name)) then
        max (max 0 (getTextSimilarity q (normalizeText (jsToLower p.name)))) 0.9
      else max 0 (getTextSimilarity q (normalizeText (jsToLower p.name)))) ≤ 1 := by
    split
    · exact max_le hm1 (by norm_num)
    · exact hm1
  refine max_le (foldl_altStep_le_one _ _ _ hm2) (getTransliterationScore_le_one _ _)

/-- The overall match score dominates the transliteration score. -/
theorem calculateMatchScore_ge_translit (q : Str) (p : Person) :
    getTransliterationScore q p.name ≤ calculateMatchScore q p := by
  rw [calculateMatchScore]
  exact le_max_right _ _

/-- The overall match score dominates the primary-name similarity. -/
theorem calculateMatchScore_ge_name (q : Str) (p : Person) :
    getTextSimilarity q (normalizeText (jsToLower p.name)) ≤
      calculateMatchScore q p := by
  rw [calculateMatchScore]
  refine le_trans ?_ (le_max_left _ _)
  refine le_trans ?_ (foldl_altStep_ge q p.altNames _)
  have h1 : getTextSimilarity q (normalizeText (jsToLower p.name)) ≤
      max 0 (getTextSimilarity q (normalizeText (jsToLower p.name))) :=
    le_max_right _ _
  split
  · exact le_trans h1 (le_max_left _ _)
  · exact h1

/-- In the pure model, when the lowercased query and the lowercased candidate
name normalize to the same string, the computed match score is exactly 1:
normalization is applied to both sides, the equal-strings similarity is 1, and
no other score component can exceed 1. -/
theorem matchScore_normalized_one (x : Str) (p : Person)
    (h : normalizeText (jsToLower x) = normalizeText (jsToLower p.name)) :
    calculateMatchScore (normalizeText (jsToLower x)) p = 1 := by
  have hname : getTextSimilarity (normalizeText (jsToLower x))
      (normalizeText (jsToLower p.name)) = 1 := by
    rw [h, getTextSimilarity, if_pos rfl]
  refine le_antisymm (calculateMatchScore_le_one _ _) ?_
  calc (1 : ℚ) = getTextSimilarity (normalizeText (jsToLower x))
        (normalizeText (jsToLower p.name)) := hname.symm
    _ ≤ calculateMatchScore (normalizeText (jsToLower x)) p :=
        calculateMatchScore_ge_name _ _

/-- On a query that is not an Object.prototype property name, the JS
transliteration score returns normally and agrees with the pure model. -/
theorem getTransliterationScoreJs_ok (q n : Str)
    (h : jsProtoKeys.contains q = false) :
    getTransliterationScoreJs q n = Except.ok (getTransliterationScore q n) := by
  have hthrow : translitProtoThrow q = false := by
    rw [translitProtoThrow, h, Bool.and_false]
  have key : ∀ o1 o2 o3 : Option ℚ,
      (match o1 with
       | some s => Except.ok s
       | none =>
         if translitProtoThrow q then Except.error ()
         else
           match o2 with
           | some s => Except.ok s
           | none =>
             match o3 with
             | some s => (Except.ok s : Except Unit ℚ)
             | none => Except.ok 0) =
      Except.ok (match o1 with
       | some s => s
       | none =>
         match o2 with
         | some s => s
         | none =>
           match o3 with
           | some s => s
           | none => 0) := by
    intro o1 o2 o3
    cases o1 <;> cases o2 <;> cases o3 <;> simp [hthrow]
  exact key _ _ _

/-- On a query that is not an Object.prototype property name, the JS match
score returns normally and agrees with the pure model. -/
theorem calculateMatchScoreJs_ok (q : Str) (p : Person)
    (h : jsProtoKeys.contains q = false) :
    calculateMatchScoreJs q p = Except.ok (calculateMatchScore q p) := by
  rw [calculateMatchScoreJs, calculateMatchScore,
    getTransliterationScoreJs_ok q p.name h]

/-- C7 counterexample: the query constructor and a person named constructor
normalize-lowercase to the same string, yet the match-score call does not
return similarity 1 — the englishToArabic index hits the inherited
Object.prototype.constructor, which is truthy, and the for...of over it throws
a TypeError. -/
theorem c7_counterexample :
    normalizeText (jsToLower "constructor".data) =
      normalizeText (jsToLower demoProtoPerson.name) ∧
    calculateMatchScoreJs (normalizeText (jsToLower "constructor".data))
      demoProtoPerson = Except.error () := by
  exact ⟨rfl, rfl⟩

/-- C7 amended: when the lowercased query and the lowercased candidate name
normalize to the same string and the normalized query does not name an
Object.prototype property, the match score call returns normally with score
exactly 1; an Object.prototype property name such as constructor instead makes
the englishToArabic index a truthy prototype-chain hit whose for...of throws. -/
theorem c7_amended (x : Str) (p : Person)
    (h : normalizeText (jsToLower x) = normalizeText (jsToLower p.name))
    (hq : jsProtoKeys.contains (normalizeText (jsToLower x)) = false) :
    calculateMatchScoreJs (normalizeText (jsToLower x)) p = Except.ok 1 := by
  rw [calculateMatchScoreJs_ok _ _ hq, matchScore_normalized_one x p h]

/-- Witness for C7: the name for Ahmed written with a hamza-bearing alef as
the query against the bare-alef spelling as the stored name scores exactly 1,
its normalized form being no prototype property name. -/
theorem c7_witness :
    normalizeText (jsToLower "أحمد".data) = normalizeText (jsToLower "احمد".data) ∧
    calculateMatchScoreJs (normalizeText (jsToLower "أحمد".data))
      ⟨"P1", "احمد".data, [], none, none, none, none, none, []⟩ = Except.ok 1 :=
  ⟨by decide, c7_amended "أحمد".data
    ⟨"P1", "احمد".data, [], none, none, none, none, none, []⟩ (by decide) (by decide)⟩

/-- C2 counterexample: for the Latin query al against the Arabic name for Ali,
the dictionary path returns similarity 2/3 immediately while the generative
path would deliver 0.85, so the returned cross-script score differs from the
maximum of the two path scores. -/
theorem c2_counterexample :
    isArabic "علي".data = true ∧ isArabic "al".data = false ∧
    getTransliterationScore "al".data "علي".data ≠
      max (dictPathScore "al".data "علي".data) (genPathScore "al".data "علي".data) := by
  refine ⟨by decide, by decide, ?_⟩
  have h1 : getTransliterationScore "al".data "علي".data = 2/3 := by decide
  have h2 : dictPathScore "al".data "علي".data = 2/3 := by decide
  have h3 : genPathScore "al".data "علي".data = 17/20 := by decide
  rw [h1, h2, h3, max_eq_right (by norm_num : (2/3 : ℚ) ≤ 17/20)]
  norm_num

/-- C2 amended: the two cross-script paths run in sequence, but the first
score that clears its threshold is returned rather than the maximum: a
dictionary-path score is returned outright, and the generative path is
consulted (and its score returned) only when the dictionary path produces
nothing. -/
theorem c2_amended (q n : Str) (ha : isArabic n = true) (hq : isArabic q = false) :
    (∀ s, dictPathResult q n = some s → getTransliterationScore q n = s) ∧
    (dictPathResult q n = none →
      ∀ s, genScan n (buildArabicCandidatesFromEnglish q) = some s →
        getTransliterationScore q n = s) := by
  have hcond : (isArabic n && !isArabic q) = true := by
    rw [ha, hq]
    rfl
  constructor
  · intro s hs
    rw [dictPathResult] at hs
    rw [getTransliterationScore]
    cases hl : lookupArabic n with
    | some variants =>
      rw [hl] at hs
      have hs2 : dictScan q variants = some s := hs
      simp only [hcond, if_true, hl, hs2]
    | none =>
      rw [hl] at hs
      cases (hs : (none : Option ℚ) = some s)
  · intro hnone s hs
    rw [dictPathResult] at hnone
    rw [getTransliterationScore]
    cases hl : lookupArabic n with
    | some variants =>
      rw [hl] at hnone
      have hn2 : dictScan q variants = none := hnone
      simp only [hcond, if_true, hl, hn2, hs]
    | none =>
      simp only [hcond, if_true, hl, hs]

/-- Witness for C2: the query ahmed against the Arabic name for Ahmed takes
the dictionary path, whose exact-variant similarity 1 is returned. -/
theorem c2_witness :
    isArabic "أحمد".data = true ∧ isArabic "ahmed".data = false ∧
    dictPathResult "ahmed".data "أحمد".data = some 1 ∧
    getTransliterationScore "ahmed".data "أحمد".data = 1 :=
  ⟨by decide, by decide, by decide,
    (c2_amended "ahmed".data "أحمد".data (by decide) (by decide)).1 1 (by decide)⟩

/-- C1 counterexample: with a person named ali on the roster, the
one-character query a returns a non-empty result list — search has no
minimum-length guard, the containment bonus 0.9 fires. -/
theorem c1_counterexample :
    search "a".data [⟨"P1", "ali".data, [], none, none, none, none, none, []⟩] ≠
      [] := by
  intro hnil
  have hmem : (⟨⟨"P1", "ali".data, [], none, none, none, none, none, []⟩,
      0.9, "English Match"⟩ : SearchResult) ∈
      search "a".data [⟨"P1", "ali".data, [], none, none, none, none, none, []⟩] := by
    rw [search, if_neg (by decide)]
    apply List.mem_mergeSort.mpr
    apply List.mem_filterMap.mpr
    refine ⟨_, List.mem_singleton.mpr rfl, ?_⟩
    decide
  rw [hnil] at hmem
  exact List.not_mem_nil _ hmem

/-- C1 amended: search returns the empty list (without failing) exactly on
empty or all-whitespace queries — the two-character minimum exists only in
getSuggestions, so a one-character query is matched like any other by search
while getSuggestions rejects it. -/
theorem c1_amended :
    (∀ (q : Str) (people : List Person), (jsTrim q).isEmpty = true →
      search q people = []) ∧
    (∀ (q : Str) (people : List Person), q.length < 2 →
      getSuggestions q people = []) := by
  constructor
  · intro q people h
    rw [search, if_pos (show (q.isEmpty || (jsTrim q).isEmpty) = true by
      rw [h, Bool.or_true])]
  · intro q people h
    rw [getSuggestions, if_pos (show (q.isEmpty || decide (q.length < 2)) = true by
      rw [decide_eq_true h, Bool.or_true])]

/-- Witness for C1: a whitespace query yields no search results and a
one-character query yields no suggestions. -/
theorem c1_witness :
    search " ".data [] = [] ∧ getSuggestions "a".data [] = [] :=
  ⟨c1_amended.1 " ".data [] (by decide), c1_amended.2 "a".data [] (by decide)⟩

/-- C8: the Latin query Ahmed finds any person whose primary name is the
Arabic name for Ahmed: the dictionary path scores 1, so the person appears in
the results with score above 0.6 and the Latin-to-Arabic match label. -/
theorem c8_ahmed_cross_script (people : List Person) (p : Person)
    (hmem : p ∈ people) (hname : p.name = "أحمد".data) :
    ∃ r ∈ search "Ahmed".data people,
      r.person = p ∧ (0.6 : ℚ) < r.score ∧
      r.matchType = "English to Arabic Transliteration" := by
  have hnq : normalizeText (jsToLower (jsTrim "Ahmed".data)) = "ahmed".data := by
    decide
  have htr : getTransliterationScore "ahmed".data p.name = 1 := by
    rw [hname]
    decide
  have hscore : (1 : ℚ) ≤ calculateMatchScore "ahmed".data p := by
    calc (1 : ℚ) = getTransliterationScore "ahmed".data p.name := htr.symm
      _ ≤ calculateMatchScore "ahmed".data p := calculateMatchScore_ge_translit _ _
  have hpos : (0 : ℚ) < calculateMatchScore "ahmed".data p :=
    lt_of_lt_of_le one_pos hscore
  have hmt : getMatchType "ahmed".data p = "English to Arabic Transliteration" := by
    rw [getMatchType, hname]
    decide
  refine ⟨⟨p, calculateMatchScore "ahmed".data p, getMatchType "ahmed".data p⟩,
    ?_, rfl, lt_of_lt_of_le (by norm_num) hscore, hmt⟩
  rw [search, if_neg (by decide)]
  simp only [hnq]
  apply List.mem_mergeSort.mpr
  apply List.mem_filterMap.mpr
  refine ⟨p, hmem, ?_⟩
  simp only [if_pos hpos]

/-- Witness for C8: a one-person roster holding the Arabic name for Ahmed. -/
theorem c8_witness :
    ∃ r ∈ search "Ahmed".data
        [⟨"P2", "أحمد".data, [], none, none, none, none, none, []⟩],
      r.person = ⟨"P2", "أحمد".data, [], none, none, none, none, none, []⟩ ∧
      (0.6 : ℚ) < r.score ∧
      r.matchType = "English to Arabic Transliteration" :=
  c8_ahmed_cross_script _ _ (List.mem_singleton.mpr rfl) rfl

/-- A resolvable id other than the deleted one still resolves after
deletePerson. -/
theorem resolves_delete {d : FamilyData} {pid f : String}
    (h : resolves d.people f) (hne : f ≠ pid) :
    resolves (deletePersonData d pid).people f := by
  obtain ⟨r, hr, hrid⟩ := h
  refine ⟨scrubRefs pid r, ?_, hrid⟩
  apply List.mem_map_of_mem
  apply List.mem_filter.mpr
  refine ⟨hr, bne_iff_ne.mpr ?_⟩
  rw [hrid]
  exact hne

/-- C4 counterexample: updatePerson performs no re-validation (a dangling
fatherId survives it), and deletePerson leaves marriage children lists
untouched (deleting a child leaves a dangling child reference), so the
claimed post-operation invariants fail for both operations. -/
theorem c4_counterexample :
    (relationshipInvariants demoDataUpdate ∧
      ¬ relationshipInvariants
        (updatePersonData demoDataUpdate "A" demoDanglingUpdate)) ∧
    (relationshipInvariants demoDataDelete ∧
      ¬ relationshipInvariants (deletePersonData demoDataDelete "C")) :=
  ⟨⟨by decide, by decide⟩, by decide, by decide⟩

/-- C4 amended: deletePerson removes every person-field and marriage-spouse
reference to the deleted id and preserves the person-reference,
marriage-spouse and no-self-reference invariants, but it does not clean
marriage children lists; updatePerson performs no re-validation at all (see
the counterexample). -/
theorem c4_amended (d : FamilyData) (pid : String) :
    (personRefsValid d → marriageSpousesValid d → noSelfRefs d →
      personRefsValid (deletePersonData d pid) ∧
      marriageSpousesValid (deletePersonData d pid) ∧
      noSelfRefs (deletePersonData d pid)) ∧
    (∀ p ∈ (deletePersonData d pid).people,
      p.fatherId ≠ some pid ∧ p.motherId ≠ some pid ∧ pid ∉ p.spouseIds) ∧
    (∀ m ∈ (deletePersonData d pid).marriages,
      m.spouse1Id ≠ pid ∧ m.spouse2Id ≠ pid) := by
  refine ⟨fun hpr hms hns => ⟨?_, ?_, ?_⟩, ?_, ?_⟩
  · -- person references still resolve
    intro p2 hp2
    obtain ⟨q, hq, rfl⟩ := List.mem_map.mp hp2
    obtain ⟨hqmem, hqid⟩ := List.mem_filter.mp hq
    obtain ⟨hf, hm, hs⟩ := hpr q hqmem
    refine ⟨?_, ?_, ?_⟩
    · show optionResolves _ (if q.fatherId = some pid then none else q.fatherId)
      split
      · exact trivial
      · rename_i hne
        cases hqf : q.fatherId with
        | none => exact trivial
        | some f =>
          rw [hqf] at hf
          have hfne : f ≠ pid := fun h => hne (by rw [hqf, h])
          exact resolves_delete hf hfne
    · show optionResolves _ (if q.motherId = some pid then none else q.motherId)
      split
      · exact trivial
      · rename_i hne
        cases hqm : q.motherId with
        | none => exact trivial
        | some m =>
          rw [hqm] at hm
          have hmne : m ≠ pid := fun h => hne (by rw [hqm, h])
          exact resolves_delete hm hmne
    · intro sid hsid
      obtain ⟨hsmem, hsne⟩ := List.mem_filter.mp hsid
      exact resolves_delete (hs sid hsmem) (bne_iff_ne.mp hsne)
  · -- marriage spouses still resolve
    intro m hm2
    obtain ⟨hmmem, hcond⟩ := List.mem_filter.mp hm2
    rw [Bool.and_eq_true] at hcond
    obtain ⟨h1, h2⟩ := hcond
    obtain ⟨hr1, hr2⟩ := hms m hmmem
    exact ⟨resolves_delete hr1 (bne_iff_ne.mp h1),
      resolves_delete hr2 (bne_iff_ne.mp h2)⟩
  · -- no self references appear
    intro p2 hp2
    obtain ⟨q, hq, rfl⟩ := List.mem_map.mp hp2
    obtain ⟨hqmem, _⟩ := List.mem_filter.mp hq
    obtain ⟨hf, hm, hsp⟩ := hns q hqmem
    refine ⟨?_, ?_, ?_⟩
    · show (if q.fatherId = some pid then none else q.fatherId) ≠ _
      split
      · simp
      · exact hf
    · show (if q.motherId = some pid then none else q.motherId) ≠ _
      split
      · simp
      · exact hm
    · intro hin
      exact hsp (List.mem_filter.mp hin).1
  · -- no person-field reference to the deleted id remains
    intro p2 hp2
    obtain ⟨q, hq, rfl⟩ := List.mem_map.mp hp2
    refine ⟨?_, ?_, ?_⟩
    · show (if q.fatherId = some pid then none else q.fatherId) ≠ some pid
      split
      · simp
      · rename_i hne
        exact hne
    · show (if q.motherId = some pid then none else q.motherId) ≠ some pid
      split
      · simp
      · rename_i hne
        exact hne
    · intro hin
      have := (List.mem_filter.mp hin).2
      simp at this
  · -- no marriage with the deleted id as spouse remains
    intro m hm2
    obtain ⟨_, hcond⟩ := List.mem_filter.mp hm2
    rw [Bool.and_eq_true] at hcond
    obtain ⟨h1, h2⟩ := hcond
    exact ⟨bne_iff_ne.mp h1, bne_iff_ne.mp h2⟩

/-- Witness for C4: deleting a childless spouse from a valid two-couple
dataset keeps the person and marriage-spouse invariants. -/
theorem c4_witness :
    personRefsValid (deletePersonData demoDataCouple "B") ∧
    marriageSpousesValid (deletePersonData demoDataCouple "B") ∧
    noSelfRefs (deletePersonData demoDataCouple "B") :=
  (c4_amended demoDataCouple "B").1 (by decide) (by decide) (by decide)

/-- Chains are nonempty by construction. -/
theorem isChain_ne_nil {people : List Person} {l : List String}
    (h : isChain people l) : l ≠ [] := by
  intro hnil
  subst hnil
  simp [isChain] at h

/-- Lower bound: any chain short enough for the available fuel bounds the
computed generation from below. -/
theorem chain_le_fuel (people : List Person) :
    ∀ (l : List String) (fuel : Nat) (id : String), isChain people l →
      l.head? = some id → l.length - 1 ≤ fuel →
      l.length - 1 ≤ computeGenerationFuel people fuel id := by
  intro l
  induction l with
  | nil =>
    intro fuel id h
    simp [isChain] at h
  | cons a rest ih =>
    intro fuel id h hhead hlen
    cases rest with
    | nil => simp
    | cons b rest2 =>
      obtain ⟨⟨p, hlook, hparent⟩, hchain⟩ := h
      have hida : a = id := by
        simp only [List.head?_cons, Option.some.injEq] at hhead
        exact hhead
      subst hida
      cases fuel with
      | zero =>
        simp only [List.length_cons] at hlen
        omega
      | succ fuel2 =>
        have hrec : (b :: rest2).length - 1 ≤ computeGenerationFuel people fuel2 b := by
          apply ih fuel2 b hchain (by simp)
          simp only [List.length_cons] at hlen ⊢
          omega
        rcases hparent with hf | hm
        · simp only [computeGenerationFuel, hlook, hf]
          simp only [List.length_cons] at hrec ⊢
          cases hmm : p.motherId <;> simp only [hmm] <;> omega
        · simp only [computeGenerationFuel, hlook, hm]
          simp only [List.length_cons] at hrec ⊢
          cases hff : p.fatherId <;> simp only [hff] <;> omega

/-- Achievability: every computed generation value is the link count of some
chain starting at the queried id (the last link may dangle). -/
theorem exists_chain_eq (people : List Person) :
    ∀ (fuel : Nat) (id : String), ∃ l, isChain people l ∧ l.head? = some id ∧
      l.length - 1 = computeGenerationFuel people fuel id := by
  intro fuel
  induction fuel with
  | zero =>
    intro id
    exact ⟨[id], by simp [isChain], by simp, by simp [computeGenerationFuel]⟩
  | succ fuel2 ih =>
    intro id
    cases hlook : lookupPerson people id with
    | none =>
      exact ⟨[id], by simp [isChain], by simp,
        by simp [computeGenerationFuel, hlook]⟩
    | some p =>
      cases hf : p.fatherId with
      | none =>
        cases hm : p.motherId with
        | none =>
          exact ⟨[id], by simp [isChain], by simp,
            by simp [computeGenerationFuel, hlook, hf, hm]⟩
        | some m =>
          obtain ⟨lm, hc, hh, hlen⟩ := ih m
          have hpos : 0 < lm.length :=
            List.length_pos.mpr (isChain_ne_nil hc)
          refine ⟨id :: lm, ?_, by simp, ?_⟩
          · cases lm with
            | nil => exact absurd hc (by simp [isChain])
            | cons b rest =>
              have hb : b = m := by
                simp only [List.head?_cons, Option.some.injEq] at hh
                exact hh
              subst hb
              exact ⟨⟨p, hlook, Or.inr hm⟩, hc⟩
          · simp only [computeGenerationFuel, hlook, hf, hm, List.length_cons]
            omega
      | some f =>
        cases hm : p.motherId with
        | none =>
          obtain ⟨lf, hc, hh, hlen⟩ := ih f
          have hpos : 0 < lf.length :=
            List.length_pos.mpr (isChain_ne_nil hc)
          refine ⟨id :: lf, ?_, by simp, ?_⟩
          · cases lf with
            | nil => exact absurd hc (by simp [isChain])
            | cons b rest =>
              have hb : b = f := by
                simp only [List.head?_cons, Option.some.injEq] at hh
                exact hh
              subst hb
              exact ⟨⟨p, hlook, Or.inl hf⟩, hc⟩
          · simp only [computeGenerationFuel, hlook, hf, hm, List.length_cons]
            omega
        | some m =>
          obtain ⟨lf, hcf, hhf, hlenf⟩ := ih f
          obtain ⟨lm, hcm, hhm, hlenm⟩ := ih m
          have hposf : 0 < lf.length := List.length_pos.mpr (isChain_ne_nil hcf)
          have hposm : 0 < lm.length := List.length_pos.mpr (isChain_ne_nil hcm)
          rcases le_total (computeGenerationFuel people fuel2 m)
              (computeGenerationFuel people fuel2 f) with hle | hle
          · refine ⟨id :: lf, ?_, by simp, ?_⟩
            · cases lf with
              | nil => exact absurd hcf (by simp [isChain])
              | cons b rest =>
                have hb : b = f := by
                  simp only [List.head?_cons, Option.some.injEq] at hhf
                  exact hhf
                subst hb
                exact ⟨⟨p, hlook, Or.inl hf⟩, hcf⟩
            · simp only [computeGenerationFuel, hlook, hf, hm, List.length_cons]
              omega
          · refine ⟨id :: lm, ?_, by simp, ?_⟩
            · cases lm with
              | nil => exact absurd hcm (by simp [isChain])
              | cons b rest =>
                have hb : b = m := by
                  simp only [List.head?_cons, Option.some.injEq] at hhm
                  exact hhm
                subst hb
                exact ⟨⟨p, hlook, Or.inr hm⟩, hcm⟩
            · simp only [computeGenerationFuel, hlook, hf, hm, List.length_cons]
              omega

/-- Every chain element except possibly the last resolves to a person. -/
theorem chain_dropLast_resolves (people : List Person) :
    ∀ l, isChain people l → ∀ x ∈ l.dropLast, ∃ p ∈ people, p.id = x := by
  intro l
  induction l with
  | nil =>
    intro h
    simp [isChain] at h
  | cons a rest ih =>
    intro h x hx
    cases rest with
    | nil => simp at hx
    | cons b rest2 =>
      obtain ⟨⟨p, hlook, _⟩, hchain⟩ := h
      rw [List.dropLast_cons₂, List.mem_cons] at hx
      rcases hx with rfl | hx2
      · have hfind := hlook
        rw [lookupPerson] at hfind
        have hmem : p ∈ people.reverse := List.mem_of_find?_eq_some hfind
        have hpred := List.find?_some hfind
        refine ⟨p, List.mem_reverse.mp hmem, ?_⟩
        exact eq_of_beq hpred
      · exact ih hchain x hx2

/-- On an acyclic dataset no chain is longer than the number of people plus
one dangling link. -/
theorem chain_length_le (people : List Person) (hacyc : acyclicParents people) :
    ∀ l, isChain people l → l.length ≤ people.length + 1 := by
  intro l hl
  have hnodup : l.dropLast.Nodup := (hacyc l hl).sublist (List.dropLast_sublist l)
  have hcard : l.dropLast.length ≤ people.length := by
    have h1 : l.dropLast.toFinset.card = l.dropLast.length :=
      List.toFinset_card_of_nodup hnodup
    have hsub : l.dropLast.toFinset ⊆ (people.map Person.id).toFinset := by
      intro x hx
      rw [List.mem_toFinset] at hx ⊢
      obtain ⟨p, hp, hpid⟩ := chain_dropLast_resolves people l hl x hx
      exact List.mem_map.mpr ⟨p, hp, hpid⟩
    have h2 := Finset.card_le_card hsub
    have h3 := List.toFinset_card_le (people.map Person.id)
    rw [List.length_map] at h3
    omega
  have hne := isChain_ne_nil hl
  have hpos : 0 < l.length := List.length_pos.mpr hne
  have hdl : l.dropLast.length = l.length - 1 := List.length_dropLast l
  omega

/-- C9 counterexample data: a single person whose father reference does not
resolve. -/
def demoDanglingParent : List Person :=
  [⟨"A", "a".data, [], none, none, none, some "X", none, []⟩]

/-- Lookup on the one-person counterexample dataset, by cases on the id. -/
theorem demoDanglingParent_lookup (x : String) :
    lookupPerson demoDanglingParent x =
      if ("A" == x) = true
      then some ⟨"A", "a".data, [], none, none, none, some "X", none, []⟩
      else none := by
  rw [lookupPerson]
  cases hbeq : (("A" : String) == x) with
  | true => simp [demoDanglingParent, List.find?_cons, hbeq]
  | false => simp [demoDanglingParent, List.find?_cons, hbeq]

/-- The one-person counterexample dataset is acyclic. -/
theorem demoDanglingParent_acyclic : acyclicParents demoDanglingParent := by
  intro l hl
  cases l with
  | nil => simp [isChain] at hl
  | cons a rest =>
    cases rest with
    | nil => simp
    | cons b rest2 =>
      obtain ⟨⟨p, hlook, hpar⟩, hchain⟩ := hl
      rw [demoDanglingParent_lookup] at hlook
      by_cases ha : ("A" == a) = true
      · rw [if_pos ha] at hlook
        have hp : p = ⟨"A", "a".data, [], none, none, none, some "X", none, []⟩ :=
          (Option.some.injEq _ _ ▸ hlook).symm
        subst hp
        have hb : b = "X" := by
          rcases hpar with hf | hm
          · exact (Option.some.injEq _ _ ▸ hf).symm
          · cases hm
        subst hb
        have haA : a = "A" := (eq_of_beq ha).symm
        subst haA
        cases rest2 with
        | nil => simp
        | cons c rest3 =>
          obtain ⟨⟨p2, hlook2, _⟩, _⟩ := hchain
          rw [demoDanglingParent_lookup] at hlook2
          simp at hlook2
      · rw [if_neg ha] at hlook
        cases hlook

/-- A person found by lookupPerson belongs to the list. -/
theorem lookupPerson_mem {people : List Person} {id : String} {p : Person}
    (h : lookupPerson people id = some p) : p ∈ people := by
  rw [lookupPerson] at h
  exact List.mem_reverse.mp (List.mem_of_find?_eq_some h)

/-- On data whose parent ids are neither Object.prototype property names nor
empty, the JS-semantics generation computation returns normally and agrees
with the pure model at every fuel. -/
theorem computeGenerationJsFuel_num (people : List Person)
    (hsafe : ∀ p ∈ people,
      (∀ f, p.fatherId = some f → jsProtoNames.contains f = false ∧ f ≠ "") ∧
      (∀ m, p.motherId = some m → jsProtoNames.contains m = false ∧ m ≠ "")) :
    ∀ (fuel : Nat) (id : String), jsProtoNames.contains id = false →
      computeGenerationJsFuel people fuel id =
        JsGen.num (computeGenerationFuel people fuel id) := by
  intro fuel
  induction fuel with
  | zero => intro id _; rfl
  | succ n ih =>
    intro id hid
    simp only [computeGenerationJsFuel, computeGenerationFuel]
    rw [if_neg (by rw [hid]; decide)]
    cases hlook : lookupPerson people id with
    | none => simp [hlook]
    | some p =>
      obtain ⟨hfa, hmo⟩ := hsafe p (lookupPerson_mem hlook)
      simp only [hlook]
      cases hf : p.fatherId with
      | none =>
        cases hm : p.motherId with
        | none => simp [jsTruthy, jsGenMax]
        | some m =>
          obtain ⟨hmp, hmne⟩ := hmo m hm
          simp [jsTruthy, hmne, ih m hmp, jsGenAdd1, jsGenMax]
      | some f =>
        obtain ⟨hfp, hfne⟩ := hfa f hf
        cases hm : p.motherId with
        | none =>
          simp [jsTruthy, hfne, ih f hfp, jsGenAdd1, jsGenMax]
        | some m =>
          obtain ⟨hmp, hmne⟩ := hmo m hm
          simp [jsTruthy, hfne, hmne, ih f hfp, ih m hmp, jsGenAdd1, jsGenMax]

/-- C9 counterexample: on the acyclic one-person dataset whose only parent
reference dangles, computeGeneration returns 1, not the claimed 0, although
the id is known, its fatherId does not resolve and its motherId is null; an
unknown id naming an Object.prototype property returns the inherited
prototype value (junk), not 0; and a sole empty-string parent id is falsy, so
it yields 0 where a counted dangling link would yield 1. -/
theorem c9_counterexample :
    (acyclicParents demoDanglingParent ∧
      lookupPerson demoDanglingParent "X" = none ∧
      computeGenerationJs demoDanglingParent "A" = JsGen.num 1) ∧
    computeGenerationJs [] "constructor" = JsGen.junk ∧
    computeGenerationJs demoEmptyFather "E" = JsGen.num 0 :=
  ⟨⟨demoDanglingParent_acyclic, by decide, by decide⟩, by decide, by decide⟩

/-- C9 amended: computeGeneration reads its memo object through the prototype
chain, so an id naming an Object.prototype property returns the inherited
value, never a number, and parent ids are truthiness-tested, so an
empty-string parent id is treated as absent; for every other id, on acyclic
data whose parent ids are themselves neither prototype property names nor
empty, the call returns a number agreeing with the pure model, terminates (the
value is stable for every sufficient fuel) and returns the largest number of
parent links on any chain starting at the id, where a chain may end at a
dangling (unresolvable) id that still counts as one link; 0 when the id is
unknown or both parent ids are null, but 1 when a sole parent id dangles. -/
theorem c9_amended (people : List Person) (hacyc : acyclicParents people)
    (hsafe : ∀ p ∈ people,
      (∀ f, p.fatherId = some f → jsProtoNames.contains f = false ∧ f ≠ "") ∧
      (∀ m, p.motherId = some m → jsProtoNames.contains m = false ∧ m ≠ ""))
    (id : String) (hid : jsProtoNames.contains id = false) :
    (∀ fuel, computeGenerationJsFuel people fuel id =
      JsGen.num (computeGenerationFuel people fuel id)) ∧
    (∀ fuel, people.length + 1 ≤ fuel →
      computeGenerationFuel people fuel id = computeGeneration people id) ∧
    (∀ l, isChain people l → l.head? = some id →
      l.length - 1 ≤ computeGeneration people id) ∧
    (∃ l, isChain people l ∧ l.head? = some id ∧
      l.length - 1 = computeGeneration people id) := by
  have hub : ∀ fuel1 fuel2, people.length + 1 ≤ fuel2 →
      computeGenerationFuel people fuel1 id ≤
        computeGenerationFuel people fuel2 id := by
    intro fuel1 fuel2 h2
    obtain ⟨l, hc, hh, hlen⟩ := exists_chain_eq people fuel1 id
    rw [← hlen]
    apply chain_le_fuel people l fuel2 id hc hh
    have := chain_length_le people hacyc l hc
    omega
  refine ⟨fun fuel => computeGenerationJsFuel_num people hsafe fuel id hid,
    fun fuel hfuel => ?_, fun l hc hh => ?_, ?_⟩
  · exact le_antisymm (hub fuel (people.length + 1) (le_refl _))
      (hub (people.length + 1) fuel hfuel)
  · apply chain_le_fuel people l (people.length + 1) id hc hh
    have := chain_length_le people hacyc l hc
    omega
  · exact exists_chain_eq people (people.length + 1) id

/-- Witness for C9: the empty dataset is acyclic and every generation query
on it is stable at 0. -/
theorem c9_acyclic_nil : acyclicParents [] := by
  intro l hl
  cases l with
  | nil => simp [isChain] at hl
  | cons a rest =>
    cases rest with
    | nil => simp
    | cons b rest2 =>
      obtain ⟨⟨p, hlook, _⟩, _⟩ := hl
      cases hlook

/-- Witness for C9 proper: on the empty dataset the JS-semantics value at
fuel 5 is the numeric, fuel-stable pure value. -/
theorem c9_witness :
    computeGenerationJsFuel [] 5 "P1" = JsGen.num (computeGeneration [] "P1") := by
  have h := c9_amended [] c9_acyclic_nil
    (fun p hp => absurd hp (List.not_mem_nil p)) "P1" (by decide)
  rw [h.1 5, h.2.1 5 (by decide)]

/-- Every output of the composed letter fold is fixed by each of the four
folds: the replacement targets are fixed points and untouched characters never
matched any fold. -/
theorem foldChar_fixed (c : Char) :
    normAlefChar (foldChar c) = foldChar c ∧ normYaaChar (foldChar c) = foldChar c ∧
    normTaaChar (foldChar c) = foldChar c ∧ normWawChar (foldChar c) = foldChar c := by
  by_cases h1 : c = 'أ' ∨ c = 'إ' ∨ c = 'آ'
  · have hc : foldChar c = 'ا' := by
      rw [foldChar, normAlefChar, if_pos h1]
      decide
    rw [hc]
    exact ⟨by decide, by decide, by decide, by decide⟩
  · by_cases h2 : c = 'ى' ∨ c = 'ي'
    · have hc : foldChar c = 'ي' := by
        rw [foldChar, normAlefChar, if_neg h1, normYaaChar, if_pos h2]
        decide
      rw [hc]
      exact ⟨by decide, by decide, by decide, by decide⟩
    · by_cases h3 : c = 'ة' ∨ c = 'ه'
      · have hc : foldChar c = 'ه' := by
          rw [foldChar, normAlefChar, if_neg h1, normYaaChar, if_neg h2,
            normTaaChar, if_pos h3]
          decide
        rw [hc]
        exact ⟨by decide, by decide, by decide, by decide⟩
      · by_cases h4 : c = 'ؤ' ∨ c = 'ئ'
        · have hc : foldChar c = 'و' := by
            rw [foldChar, normAlefChar, if_neg h1, normYaaChar, if_neg h2,
              normTaaChar, if_neg h3, normWawChar, if_pos h4]
          rw [hc]
          exact ⟨by decide, by decide, by decide, by decide⟩
        · have hc : foldChar c = c := by
            rw [foldChar, normAlefChar, if_neg h1, normYaaChar, if_neg h2,
              normTaaChar, if_neg h3, normWawChar, if_neg h4]
          rw [hc]
          exact ⟨by rw [normAlefChar, if_neg h1], by rw [normYaaChar, if_neg h2],
            by rw [normTaaChar, if_neg h3], by rw [normWawChar, if_neg h4]⟩

/-- The four mapping passes of normalizeText are one map of the composed fold. -/
theorem map_foldChar (s : Str) :
    (((s.map normAlefChar).map normYaaChar).map normTaaChar).map normWawChar =
      s.map foldChar := by
  simp only [List.map_map]
  rfl

/-- A map is the identity on a list all of whose members it fixes. -/
theorem mapIdOn {f : Char → Char} :
    ∀ l : Str, (∀ d ∈ l, f d = d) → l.map f = l := by
  intro l
  induction l with
  | nil => intro _; rfl
  | cons c cs ih =>
    intro h
    rw [List.map_cons, h c (List.mem_cons_self c cs),
      ih (fun d hd => h d (List.mem_cons_of_mem c hd))]

/-- Characters produced by the whitespace collapse: the inserted space or a
non-whitespace character of the input. -/
theorem mem_collapseWsAux :
    ∀ (prev : Bool) (l : Str) (d : Char), d ∈ collapseWsAux prev l →
      d = ' ' ∨ (d ∈ l ∧ jsWs d = false) := by
  intro prev l
  induction l generalizing prev with
  | nil =>
    intro d hd
    simp [collapseWsAux] at hd
  | cons c cs ih =>
    intro d hd
    rw [collapseWsAux] at hd
    by_cases hws : jsWs c
    · rw [if_pos hws] at hd
      cases prev with
      | true =>
        rcases ih true d hd with h | ⟨hmem, hnws⟩
        · exact Or.inl h
        · exact Or.inr ⟨List.mem_cons_of_mem c hmem, hnws⟩
      | false =>
        rcases List.mem_cons.mp hd with rfl | hd2
        · exact Or.inl rfl
        · rcases ih true d hd2 with h | ⟨hmem, hnws⟩
          · exact Or.inl h
          · exact Or.inr ⟨List.mem_cons_of_mem c hmem, hnws⟩
    · rw [if_neg hws] at hd
      rcases List.mem_cons.mp hd with rfl | hd2
      · exact Or.inr ⟨List.mem_cons_self d cs, by
          revert hws
          cases jsWs d <;> simp⟩
      · rcases ih false d hd2 with h | ⟨hmem, hnws⟩
        · exact Or.inl h
        · exact Or.inr ⟨List.mem_cons_of_mem c hmem, hnws⟩

/-- Trimming only removes characters. -/
theorem mem_jsTrim (l : Str) (d : Char) (hd : d ∈ jsTrim l) : d ∈ l := by
  rw [jsTrim] at hd
  rw [List.mem_reverse] at hd
  have h2 := (List.dropWhile_sublist jsWs).subset hd
  rw [List.mem_reverse] at h2
  exact (List.dropWhile_sublist jsWs).subset h2

/-- Every character of a normalized string is fixed by the four letter folds
and is not a hamza. -/
theorem normalizeText_char_good (s : Str) :
    ∀ d ∈ normalizeText s,
      normAlefChar d = d ∧ normYaaChar d = d ∧ normTaaChar d = d ∧
      normWawChar d = d ∧ d ≠ 'ء' := by
  intro d hd
  rw [normalizeText] at hd
  have hd2 := mem_jsTrim _ _ hd
  rcases mem_collapseWsAux false _ d hd2 with rfl | ⟨hd3, _⟩
  · exact ⟨by decide, by decide, by decide, by decide, by decide⟩
  · obtain ⟨hd4, hdne⟩ := List.mem_filter.mp hd3
    have hne : d ≠ 'ء' := by
      intro hcontra
      rw [hcontra] at hdne
      simp at hdne
    rw [map_foldChar] at hd4
    obtain ⟨c, _, rfl⟩ := List.mem_map.mp hd4
    have h := foldChar_fixed c
    exact ⟨h.1, h.2.1, h.2.2.1, h.2.2.2, hne⟩

/-- After the collapser has just written a space, the next emitted character
is not whitespace. -/
theorem collapseWsAux_true_head :
    ∀ l : Str, ∀ d ∈ (collapseWsAux true l).head?, jsWs d = false := by
  intro l
  induction l with
  | nil =>
    intro d hd
    simp [collapseWsAux] at hd
  | cons c cs ih =>
    intro d hd
    rw [collapseWsAux] at hd
    by_cases hws : jsWs c
    · rw [if_pos hws] at hd
      exact ih d hd
    · rw [if_neg hws] at hd
      simp only [List.head?_cons, Option.mem_def, Option.some.injEq] at hd
      have hdc : c = d := by simpa using hd
      subst hdc
      simpa using hws

/-- The collapser output never has two consecutive whitespace characters. -/
theorem collapseWs_chain :
    ∀ (prev : Bool) (l : Str), List.Chain' wsep (collapseWsAux prev l) := by
  intro prev l
  induction l generalizing prev with
  | nil => simp [collapseWsAux]
  | cons c cs ih =>
    rw [collapseWsAux]
    by_cases hws : jsWs c
    · rw [if_pos hws]
      cases prev with
      | true => exact ih true
      | false =>
        rw [if_neg (by decide), List.chain'_cons']
        refine ⟨?_, ih true⟩
        intro y hy
        intro _
        exact collapseWsAux_true_head cs y hy
    · rw [if_neg hws]
      rw [List.chain'_cons']
      refine ⟨?_, ih false⟩
      intro y hy hcontra
      revert hws
      rw [hcontra]
      simp

/-- On a string whose whitespace is single spaces with no two adjacent, the
collapser is the identity (in the just-after-space state this needs the head
to be non-whitespace). -/
theorem collapse_fix :
    ∀ l : Str, (∀ d ∈ l, jsWs d = true → d = ' ') → List.Chain' wsep l →
      collapseWsAux false l = l ∧
      ((∀ d ∈ l.head?, jsWs d = false) → collapseWsAux true l = l) := by
  intro l
  induction l with
  | nil => exact fun _ _ => ⟨rfl, fun _ => rfl⟩
  | cons c cs ih =>
    intro honly hchain
    obtain ⟨hrel, hchain2⟩ := List.chain'_cons'.mp hchain
    have honly2 : ∀ d ∈ cs, jsWs d = true → d = ' ' :=
      fun d hd => honly d (List.mem_cons_of_mem c hd)
    obtain ⟨ih1, ih2⟩ := ih honly2 hchain2
    constructor
    · rw [collapseWsAux]
      by_cases hws : jsWs c
      · rw [if_pos hws]
        have hc : c = ' ' := honly c (List.mem_cons_self c cs) hws
        have hhead : ∀ d ∈ cs.head?, jsWs d = false := by
          intro d hd
          exact hrel d hd hws
        rw [ih2 hhead, hc]
        rfl
      · rw [if_neg hws, ih1]
    · intro hhead
      have hcws : jsWs c = false := hhead c (by simp)
      rw [collapseWsAux, if_neg (by rw [hcws]; exact fun h => nomatch h), ih1]

/-- The head of a dropWhile result does not satisfy the predicate. -/
theorem head_dropWhile (p : Char → Bool) (l : Str) :
    ∀ d ∈ (List.dropWhile p l).head?, p d = false := by
  intro d hd
  have h := List.head?_dropWhile_not p l
  rw [Option.mem_def] at hd
  rw [hd] at h
  exact h

/-- When dropWhile leaves something, the last element is unchanged. -/
theorem getLast_dropWhile_of_ne_nil (p : Char → Bool) (l : Str)
    (h : List.dropWhile p l ≠ []) :
    (List.dropWhile p l).getLast? = l.getLast? := by
  conv_rhs => rw [← List.takeWhile_append_dropWhile p l]
  rw [List.getLast?_append]
  cases hl : (List.dropWhile p l).getLast? with
  | none =>
    exact absurd (List.getLast?_eq_none_iff.mp hl) h
  | some x => rfl

/-- A string with non-whitespace head and last is already trimmed. -/
theorem jsTrim_eq_self (l : Str)
    (hhead : ∀ d ∈ l.head?, jsWs d = false)
    (hlast : ∀ d ∈ l.getLast?, jsWs d = false) : jsTrim l = l := by
  rw [jsTrim]
  have h1 : l.dropWhile jsWs = l := by
    cases l with
    | nil => rfl
    | cons c cs =>
      have hc : jsWs c = false := hhead c (by simp)
      rw [List.dropWhile_cons_of_neg (by rw [hc]; exact fun h => nomatch h)]
  rw [h1]
  have h2 : l.reverse.dropWhile jsWs = l.reverse := by
    cases hrev : l.reverse with
    | nil => rfl
    | cons c cs =>
      have hc : jsWs c = false := by
        apply hlast
        rw [← List.head?_reverse, hrev]
        simp
      rw [List.dropWhile_cons_of_neg (by rw [hc]; exact fun h => nomatch h)]
  rw [h2, List.reverse_reverse]

/-- Trimming preserves the whitespace-separation invariant. -/
theorem jsTrim_chain (l : Str) (h : List.Chain' wsep l) :
    List.Chain' wsep (jsTrim l) := by
  have hz : List.Chain' wsep (l.dropWhile jsWs) := by
    have h0 : List.Chain' wsep (List.takeWhile jsWs l ++ List.dropWhile jsWs l) := by
      rw [List.takeWhile_append_dropWhile jsWs l]
      exact h
    exact (List.chain'_append.mp h0).2.1
  have hzr : List.Chain' (flip wsep) (l.dropWhile jsWs).reverse :=
    List.chain'_reverse.mpr hz
  have hy : List.Chain' (flip wsep) ((l.dropWhile jsWs).reverse.dropWhile jsWs) := by
    have h0 : List.Chain' (flip wsep)
        (List.takeWhile jsWs (l.dropWhile jsWs).reverse ++
          List.dropWhile jsWs (l.dropWhile jsWs).reverse) := by
      rw [List.takeWhile_append_dropWhile jsWs (l.dropWhile jsWs).reverse]
      exact hzr
    exact (List.chain'_append.mp h0).2.1
  rw [jsTrim]
  exact List.chain'_reverse.mpr hy

/-- Whitespace inside a normalized string is always the plain space character. -/
theorem normalizeText_ws_space (s : Str) :
    ∀ d ∈ normalizeText s, jsWs d = true → d = ' ' := by
  intro d hd hws
  rw [normalizeText] at hd
  have hd2 := mem_jsTrim _ _ hd
  rcases mem_collapseWsAux false _ d hd2 with rfl | ⟨_, hnws⟩
  · rfl
  · rw [hws] at hnws
    exact absurd hnws (by simp)

/-- A normalized string never has two adjacent whitespace characters. -/
theorem normalizeText_chain (s : Str) : List.Chain' wsep (normalizeText s) := by
  rw [normalizeText]
  exact jsTrim_chain _ (collapseWs_chain false _)

/-- A trimmed string starts and ends with non-whitespace (when nonempty). -/
theorem jsTrim_head_last (l : Str) :
    (∀ d ∈ (jsTrim l).head?, jsWs d = false) ∧
    (∀ d ∈ (jsTrim l).getLast?, jsWs d = false) := by
  rw [jsTrim]
  constructor
  · intro d hd
    rw [List.head?_reverse] at hd
    by_cases hne : (l.dropWhile jsWs).reverse.dropWhile jsWs = []
    · rw [hne] at hd
      simp at hd
    · rw [getLast_dropWhile_of_ne_nil jsWs _ hne, List.getLast?_reverse] at hd
      exact head_dropWhile jsWs l d hd
  · intro d hd
    rw [List.getLast?_reverse] at hd
    exact head_dropWhile jsWs _ d hd

/-- A normalized string starts and ends with non-whitespace (when nonempty). -/
theorem normalizeText_head_last (s : Str) :
    (∀ d ∈ (normalizeText s).head?, jsWs d = false) ∧
    (∀ d ∈ (normalizeText s).getLast?, jsWs d = false) := by
  rw [normalizeText]
  exact jsTrim_head_last _

/-- C10: normalizeText is idempotent — applying it to an already-normalized
string returns that string unchanged (the letter folds fix every output
character, no hamza survives, whitespace is already single spaces, and the
ends are already trimmed). -/
theorem c10_normalizeText_idempotent (s : Str) :
    normalizeText (normalizeText s) = normalizeText s := by
  have hgood := normalizeText_char_good s
  conv_lhs => rw [normalizeText]
  have hmap : ((((normalizeText s).map normAlefChar).map normYaaChar).map
      normTaaChar).map normWawChar = normalizeText s := by
    rw [map_foldChar]
    apply mapIdOn
    intro d hd
    obtain ⟨h1, h2, h3, h4, _⟩ := hgood d hd
    rw [foldChar, h1, h2, h3, h4]
  rw [hmap]
  have hfil : (normalizeText s).filter (fun c => c ≠ 'ء') = normalizeText s := by
    rw [List.filter_eq_self]
    intro a ha
    simpa using (hgood a ha).2.2.2.2
  rw [hfil]
  have hcol : collapseWs (normalizeText s) = normalizeText s := by
    rw [collapseWs]
    exact (collapse_fix (normalizeText s) (normalizeText_ws_space s)
      (normalizeText_chain s)).1
  rw [hcol]
  exact jsTrim_eq_self (normalizeText s) (normalizeText_head_last s).1
    (normalizeText_head_last s).2

end FamilyTree
